import Mathlib

/-!
Verification of the BigInt arbitrary-precision unsigned integer engine
(`src/main.cpp`).

A `BigInt` stores its decimal digits in a `std::string`, least-significant
digit first; each stored byte is the *numeric* digit value 0..9 (not an
ASCII code), as established by the `unsigned long long` constructor
(`digits.push_back(n % 10)`).  We embed the digit string as `List Nat`
(least-significant first) and every operation of the class as a Lean
function on such lists, following the C++ source line by line.
-/

namespace BigIntSpec

/-- The error kinds of the engine, one per C++ exception used by the code:
`invalid_argument` during parsing (`InvalidFormat` in the spec),
`underflow_error` (`Underflow`), `runtime_error` on division/modulo by zero
(`DivisionByZero`), and `invalid_argument` on negative arguments to
`factorial`/`catalan`/`sqrt` (`InvalidArgument`). -/
inductive Err where
  | invalidFormat
  | underflow
  | divisionByZero
  | invalidArgument
deriving DecidableEq

/-- Numeric value of a least-significant-first digit list. -/
def toNat : List Nat → Nat
  | [] => 0
  | d :: ds => d + 10 * toNat ds

/-- The canonical-form invariant of the spec: non-empty, all digits in
[0,9], and no trailing most-significant zero except for the single-digit
zero itself. -/
def Canon (d : List Nat) : Prop :=
  d ≠ [] ∧ (∀ x ∈ d, x < 10) ∧ (1 < d.length → d.getLastD 0 ≠ 0)

instance (d : List Nat) : Decidable (Canon d) := by
  unfold Canon; infer_instance

/-- The digit-emitting loop `do { push n % 10; n /= 10; } while (n > 0)`
of `BigInt(unsigned long long)`, after its unconditional first iteration:
this is the `while (n > 0)` part. -/
def toDigitsLoop (n : Nat) : List Nat :=
  if h : n = 0 then [] else n % 10 :: toDigitsLoop (n / 10)
termination_by n
decreasing_by exact Nat.div_lt_self (Nat.pos_of_ne_zero h) (by omega)

/-- `BigInt(unsigned long long n)`: emit `n % 10`, divide by 10, repeat
while positive (the loop body runs at least once, so 0 gives [0]). -/
def fromNat (n : Nat) : List Nat :=
  n % 10 :: toDigitsLoop (n / 10)

/-- The parsing loop of `BigInt(const string& s)`: iterate over the
remaining text from its last character to its first, failing on the first
non-digit encountered, pushing `c - '0'` otherwise.  The argument is the
remaining text already reversed, so the loop is structural. -/
def parseRevLoop : List Char → Except Err (List Nat)
  | [] => .ok []
  | c :: rest =>
    if c.isDigit then
      match parseRevLoop rest with
      | .ok ds => .ok ((c.toNat - 48) :: ds)
      | .error e => .error e
    else .error .invalidFormat

/-- `BigInt(const string& s)`: strip all leading `'0'` characters; if
nothing remains, the code assigns `digits = "0"`, i.e. the single
*character* `'0'`, whose byte value is 48 — hence the digit list `[48]`.
Otherwise parse the remaining characters from last to first. -/
def fromString (s : List Char) : Except Err (List Nat) :=
  let t := s.dropWhile (· = '0')
  if t = [] then .ok [48]
  else parseRevLoop t.reverse

/-- `is_zero()`: the digit sequence has size 1 and its single entry is the
byte 0. -/
def is_zero (d : List Nat) : Bool :=
  decide (d.length = 1) && decide (d.headD 0 = 0)

/-- Helper for `remove_leading_zeros`, acting on the reversed
(most-significant-first) digit list: drop zeros while more than one digit
remains. -/
def dropZerosMSB : List Nat → List Nat
  | [] => []
  | [d] => [d]
  | d :: rest => if d = 0 then dropZerosMSB rest else d :: rest

/-- `remove_leading_zeros()`: `while (size > 1 && back == 0) pop_back()`. -/
def remove_leading_zeros (d : List Nat) : List Nat :=
  (dropZerosMSB d.reverse).reverse

/-- The digit-by-digit scan of `operator<` on two reversed
(most-significant-first) digit lists of equal length: the first mismatch
decides; equal sequences give `false`. -/
def ltMSB : List Nat → List Nat → Bool
  | x :: xs, y :: ys => if x ≠ y then decide (x < y) else ltMSB xs ys
  | _, _ => false

/-- `operator<`: compare sizes first, then digits from the
most-significant position downward. -/
def ltB (a b : List Nat) : Bool :=
  if a.length ≠ b.length then decide (a.length < b.length)
  else ltMSB a.reverse b.reverse

/-- `operator<=`, defined in the source as `!(a > b)`, i.e. `!(b < a)`. -/
def leB (a b : List Nat) : Bool := !(ltB b a)

/-- `operator>=`, defined in the source as `!(a < b)`. -/
def geB (a b : List Nat) : Bool := !(ltB a b)

/-- The carry loop of `operator+=`: position by position while
`i < max_len || carry`, with `digits[i] = sum % 10` and `carry = sum / 10`;
when both operands are exhausted the remaining iterations just emit the
digits of the carry (same loop as `toDigitsLoop`). -/
def addLoop : List Nat → List Nat → Nat → List Nat
  | x :: xs, y :: ys, c => (x + y + c) % 10 :: addLoop xs ys ((x + y + c) / 10)
  | x :: xs, [], c => (x + c) % 10 :: addLoop xs [] ((x + c) / 10)
  | [], y :: ys, c => (y + c) % 10 :: addLoop [] ys ((y + c) / 10)
  | [], [], c => toDigitsLoop c

/-- `operator+=` (and the value-returning `operator+`). -/
def add (a b : List Nat) : List Nat := addLoop a b 0

/-- The borrow loop of `operator-=`: for each position of `self`'s digit
sequence, `diff = digits[i] - borrow - other_digit`, adding 10 and setting
the borrow when negative.  Any final borrow is dropped, exactly as in the
source. -/
def subLoop : List Nat → List Nat → Nat → List Nat
  | [], _, _ => []
  | x :: xs, [], w =>
    if (x : Int) - w < 0 then ((x : Int) - w + 10).toNat :: subLoop xs [] 1
    else ((x : Int) - w).toNat :: subLoop xs [] 0
  | x :: xs, y :: ys, w =>
    if (x : Int) - w - y < 0 then ((x : Int) - w - y + 10).toNat :: subLoop xs ys 1
    else ((x : Int) - w - y).toNat :: subLoop xs ys 0

/-- The mutation performed by `operator-=` once its underflow guard has
passed: run the borrow loop, then `remove_leading_zeros`. -/
def subU (a b : List Nat) : List Nat :=
  remove_leading_zeros (subLoop a b 0)

/-- `operator-=` (and `operator-`): throws `underflow_error` when
`*this < other`, otherwise subtracts in place and normalizes. -/
def sub (a b : List Nat) : Except Err (List Nat) :=
  if ltB a b then .error .underflow else .ok (subU a b)

/-- One step of the multiplication convolution, at result position
`k = i + j` with product contribution `p = digits[i] * other.digits[j]`:
`result[k] += p; result[k+1] += result[k] / 10; result[k] %= 10;`. -/
def mulStep (res : List Nat) (k p : Nat) : List Nat :=
  let r1 := res.set k (res.getD k 0 + p)
  let r2 := r1.set (k + 1) (r1.getD (k + 1) 0 + r1.getD k 0 / 10)
  r2.set k (r2.getD k 0 % 10)

/-- The inner `j` loop of `operator*=` for a fixed digit `ai = digits[i]`. -/
def mulInnerGo (ai i : Nat) : List Nat → Nat → List Nat → List Nat
  | [], _, res => res
  | bj :: bs, j, res => mulInnerGo ai i bs (j + 1) (mulStep res (i + j) (ai * bj))

/-- The outer `i` loop of `operator*=`. -/
def mulOuterGo : List Nat → Nat → List Nat → List Nat → List Nat
  | [], _, _, res => res
  | ai :: arest, i, b, res => mulOuterGo arest (i + 1) b (mulInnerGo ai i b 0 res)

/-- `operator*=` (and `operator*`): zero short-circuit, then schoolbook
convolution into a buffer of `len(a) + len(b)` zeros, copied back and
normalized. -/
def mul (a b : List Nat) : List Nat :=
  if is_zero a || is_zero b then fromNat 0
  else remove_leading_zeros (mulOuterGo a 0 b (List.replicate (a.length + b.length) 0))

/-- `operator<<`: print each digit from most-significant to
least-significant as an `int` (so a well-formed digit 0..9 prints as one
character, while an out-of-range byte like 48 prints all *its* decimal
digits). -/
def render (d : List Nat) : List Char :=
  d.reverse.foldl (fun acc x => acc ++ (Nat.repr x).toList) []

/-- The ordinary decimal string of a natural number, written
most-significant digit first, with `0` rendered as `"0"`.  This is the
specification-side reference for the render/construct round trip; it is
defined from Mathlib's `Nat.digits`, independently of the code above. -/
def decimalString (n : Nat) : List Char :=
  if n = 0 then ['0']
  else (Nat.digits 10 n).reverse.map (fun d => Char.ofNat (48 + d))

/-! ### Value of a digit list -/

lemma toNat_nil : toNat [] = 0 := rfl

lemma toNat_cons (d : Nat) (ds : List Nat) : toNat (d :: ds) = d + 10 * toNat ds := rfl

lemma toNat_append (u v : List Nat) :
    toNat (u ++ v) = toNat u + 10 ^ u.length * toNat v := by
  induction u with
  | nil => simp [toNat]
  | cons d ds ih =>
    simp only [List.cons_append, toNat_cons, ih, List.length_cons, pow_succ]
    ring

lemma toNat_lt (d : List Nat) (h : ∀ x ∈ d, x < 10) : toNat d < 10 ^ d.length := by
  induction d with
  | nil => simp [toNat]
  | cons x xs ih =>
    have hx : x < 10 := h x (by simp)
    have hxs := ih (fun y hy => h y (by simp [hy]))
    simp only [toNat_cons, List.length_cons, pow_succ]
    omega

lemma getLastD_of_ne_nil (l : List Nat) (hl : l ≠ []) (d₁ d₂ : Nat) :
    l.getLastD d₁ = l.getLastD d₂ := by
  cases l with
  | nil => exact absurd rfl hl
  | cons x xs => rw [List.getLastD_cons, List.getLastD_cons]

lemma getLastD_mul_le (d : List Nat) (h : d ≠ []) :
    d.getLastD 0 * 10 ^ (d.length - 1) ≤ toNat d := by
  induction d with
  | nil => exact absurd rfl h
  | cons x xs ih =>
    cases xs with
    | nil => simp [toNat]
    | cons y ys =>
      have hxs := ih (by simp)
      rw [List.getLastD_cons, getLastD_of_ne_nil (y :: ys) (by simp) x 0]
      simp only [toNat_cons, List.length_cons] at hxs ⊢
      have h10 : (10:Nat) ^ (ys.length + 1 - 1 + 1) = 10 ^ (ys.length + 1 - 1) * 10 :=
        pow_succ 10 _
      have : ys.length + 1 - 1 + 1 = ys.length + 1 + 1 - 1 := by omega
      rw [this] at h10
      rw [h10]
      calc (y :: ys).getLastD 0 * (10 ^ (ys.length + 1 - 1) * 10)
          = ((y :: ys).getLastD 0 * 10 ^ (ys.length + 1 - 1)) * 10 := by ring
        _ ≤ (y + 10 * toNat ys) * 10 := by
            exact Nat.mul_le_mul_right 10 hxs
        _ ≤ x + 10 * (y + 10 * toNat ys) := by omega

/-! ### Canonical form -/

lemma canon_singleton (z : Nat) (h : z < 10) : Canon [z] := by
  refine ⟨by simp, by simpa using h, by simp⟩

lemma canon_cons_iff (x : Nat) (xs : List Nat) :
    Canon (x :: xs) ↔ x < 10 ∧ (xs = [] ∨ (Canon xs ∧ xs ≠ [0])) := by
  constructor
  · rintro ⟨-, h10, hlast⟩
    refine ⟨h10 x (by simp), ?_⟩
    cases xs with
    | nil => exact Or.inl rfl
    | cons y ys =>
      refine Or.inr ⟨⟨by simp, fun z hz => h10 z (by simp [hz]), fun hlen => ?_⟩, fun h0 => ?_⟩
      · have := hlast (by simp)
        rw [List.getLastD_cons, getLastD_of_ne_nil (y :: ys) (by simp) x 0] at this
        exact this
      · have := hlast (by simp)
        rw [h0] at this
        simp [List.getLastD_cons] at this
  · rintro ⟨hx, hxs⟩
    rcases hxs with rfl | ⟨⟨hne, h10, hlast⟩, h0⟩
    · exact canon_singleton x hx
    · refine ⟨by simp, ?_, fun _ => ?_⟩
      · intro z hz
        rcases (List.mem_cons).mp hz with rfl | hz
        · exact hx
        · exact h10 z hz
      · cases xs with
        | nil => exact absurd rfl hne
        | cons y ys =>
          rw [List.getLastD_cons, getLastD_of_ne_nil (y :: ys) (by simp) x 0]
          cases ys with
          | nil =>
            simp only [List.getLastD_cons, List.getLastD_nil]
            intro hy0
            exact h0 (by simp [hy0])
          | cons z zs => exact hlast (by simp)

lemma canon_ne_nil {d : List Nat} (h : Canon d) : d ≠ [] := h.1

lemma canon_digits {d : List Nat} (h : Canon d) : ∀ x ∈ d, x < 10 := h.2.1

lemma canon_ge (d : List Nat) (hc : Canon d) : d = [0] ∨ 10 ^ (d.length - 1) ≤ toNat d := by
  cases d with
  | nil => exact absurd rfl hc.1
  | cons x xs =>
    cases xs with
    | nil =>
      by_cases hx : x = 0
      · exact Or.inl (by simp [hx])
      · right; simpa [toNat] using Nat.pos_of_ne_zero hx
    | cons y ys =>
      right
      have hlast : (x :: y :: ys).getLastD 0 ≠ 0 := hc.2.2 (by simp)
      have := getLastD_mul_le (x :: y :: ys) (by simp)
      have h1 : 1 ≤ (x :: y :: ys).getLastD 0 := Nat.pos_of_ne_zero hlast
      calc 10 ^ ((x :: y :: ys).length - 1)
          = 1 * 10 ^ ((x :: y :: ys).length - 1) := by ring
        _ ≤ (x :: y :: ys).getLastD 0 * 10 ^ ((x :: y :: ys).length - 1) :=
            Nat.mul_le_mul_right _ h1
        _ ≤ toNat (x :: y :: ys) := this

lemma canon_of_big : ∀ (d : List Nat), d ≠ [] → (∀ x ∈ d, x < 10) →
    10 ^ (d.length - 1) ≤ toNat d → Canon d := by
  intro d
  induction d with
  | nil => intro h; exact absurd rfl h
  | cons x xs ih =>
    intro _ h10 hbig
    rcases List.eq_nil_or_concat xs with rfl | _
    · exact canon_singleton x (h10 x (by simp))
    · rw [canon_cons_iff]
      refine ⟨h10 x (by simp), ?_⟩
      cases xs with
      | nil => exact Or.inl rfl
      | cons y ys =>
        right
        have hx : x < 10 := h10 x (by simp)
        have h10xs : ∀ z ∈ (y :: ys), z < 10 := fun z hz => h10 z (by simp [hz])
        have hlen : (x :: y :: ys).length - 1 = (y :: ys).length := by simp
        rw [hlen] at hbig
        have hys : (y :: ys).length = ((y :: ys).length - 1) + 1 := by simp
        have hpow : (10:Nat) ^ (y :: ys).length = 10 ^ ((y :: ys).length - 1) * 10 := by
          rw [hys]; exact pow_succ 10 _
        have hbig' : 10 ^ ((y :: ys).length - 1) ≤ toNat (y :: ys) := by
          rw [toNat_cons] at hbig
          rw [hpow] at hbig
          omega
        have hcanon := ih (by simp) h10xs hbig'
        refine ⟨hcanon, fun h0 => ?_⟩
        rw [h0] at hbig'
        simp [toNat] at hbig'

lemma canon_toNat_zero : ∀ (d : List Nat), Canon d → toNat d = 0 → d = [0] := by
  intro d
  induction d with
  | nil => intro hc; exact absurd rfl hc.1
  | cons x xs ih =>
    intro hc h0
    rw [toNat_cons] at h0
    have hx : x = 0 := by omega
    have hxs : toNat xs = 0 := by omega
    rcases (canon_cons_iff x xs).mp hc with ⟨-, rfl | ⟨hcxs, hne⟩⟩
    · simp [hx]
    · exact absurd (ih hcxs hxs) hne

lemma toNat_inj : ∀ (a b : List Nat), Canon a → Canon b → toNat a = toNat b → a = b := by
  intro a
  induction a with
  | nil => intro b hca; exact absurd rfl hca.1
  | cons x xs ih =>
    intro b hca hcb heq
    cases b with
    | nil => exact absurd rfl hcb.1
    | cons y ys =>
      rw [toNat_cons, toNat_cons] at heq
      have hx : x < 10 := hca.2.1 x (by simp)
      have hy : y < 10 := hcb.2.1 y (by simp)
      have hxy : x = y := by omega
      have hts : toNat xs = toNat ys := by omega
      rcases (canon_cons_iff x xs).mp hca with ⟨-, hxs⟩
      rcases (canon_cons_iff y ys).mp hcb with ⟨-, hys⟩
      subst hxy
      rcases hxs with rfl | ⟨hcxs, hxs0⟩
      · rcases hys with rfl | ⟨hcys, hys0⟩
        · rfl
        · rw [toNat_nil] at hts
          exact absurd (canon_toNat_zero ys hcys hts.symm) hys0
      · rcases hys with rfl | ⟨hcys, hys0⟩
        · rw [toNat_nil] at hts
          exact absurd (canon_toNat_zero xs hcxs hts) hxs0
        · rw [ih ys hcxs hcys hts]

lemma is_zero_iff_eq (d : List Nat) : is_zero d = true ↔ d = [0] := by
  cases d with
  | nil => simp [is_zero]
  | cons x xs =>
    cases xs with
    | nil => simp [is_zero]
    | cons y ys => simp [is_zero]

lemma is_zero_iff (d : List Nat) (hc : Canon d) : is_zero d = true ↔ toNat d = 0 := by
  rw [is_zero_iff_eq]
  constructor
  · rintro rfl; rfl
  · exact canon_toNat_zero d hc

/-! ### Normalization -/

lemma dropZeros_singleton (x : Nat) : dropZerosMSB [x] = [x] := rfl

lemma dropZeros_cons_of_ne (e : Nat) (es : List Nat) (he : e ≠ 0) :
    dropZerosMSB (e :: es) = e :: es := by
  cases es with
  | nil => rfl
  | cons f fs => simp [dropZerosMSB, he]

lemma dropZeros_val (u : List Nat) : toNat (dropZerosMSB u).reverse = toNat u.reverse := by
  induction u using dropZerosMSB.induct with
  | case1 => rfl
  | case2 d => rfl
  | case3 rest hne ih =>
    obtain ⟨e, es, rfl⟩ := List.exists_cons_of_ne_nil (fun h => hne h)
    have hstep : dropZerosMSB (0 :: e :: es) = dropZerosMSB (e :: es) := by
      simp [dropZerosMSB]
    rw [hstep, ih]
    simp [List.reverse_cons, toNat_append, toNat]
  | case4 d rest hne hd =>
    obtain ⟨e, es, rfl⟩ := List.exists_cons_of_ne_nil (fun h => hne h)
    simp [dropZerosMSB, hd]

lemma dropZeros_mem (u : List Nat) : ∀ x ∈ dropZerosMSB u, x ∈ u := by
  induction u using dropZerosMSB.induct with
  | case1 => intro x hx; exact absurd hx (by simp [dropZerosMSB])
  | case2 d => simp [dropZerosMSB]
  | case3 rest hne ih =>
    obtain ⟨e, es, rfl⟩ := List.exists_cons_of_ne_nil (fun h => hne h)
    have hstep : dropZerosMSB (0 :: e :: es) = dropZerosMSB (e :: es) := by
      simp [dropZerosMSB]
    rw [hstep]
    intro x hx
    exact List.mem_cons_of_mem 0 (ih x hx)
  | case4 d rest hne hd =>
    obtain ⟨e, es, rfl⟩ := List.exists_cons_of_ne_nil (fun h => hne h)
    simp [dropZerosMSB, hd]

lemma dropZeros_shape (u : List Nat) (h : u ≠ []) :
    dropZerosMSB u ≠ [] ∧
      ((dropZerosMSB u).length = 1 ∨ (dropZerosMSB u).headD 0 ≠ 0) := by
  induction u using dropZerosMSB.induct with
  | case1 => exact absurd rfl h
  | case2 d => exact ⟨by simp [dropZerosMSB], Or.inl (by simp [dropZerosMSB])⟩
  | case3 rest hne ih =>
    obtain ⟨e, es, rfl⟩ := List.exists_cons_of_ne_nil (fun h => hne h)
    simp only [dropZerosMSB, if_pos rfl]
    exact ih (by simp)
  | case4 d rest hne hd =>
    obtain ⟨e, es, rfl⟩ := List.exists_cons_of_ne_nil (fun h => hne h)
    simp [dropZerosMSB, hd]

lemma getLastD_reverse (l : List Nat) (d : Nat) :
    l.reverse.getLastD d = l.headD d := by
  cases l with
  | nil => rfl
  | cons x xs => rw [List.reverse_cons]; simp

lemma rlz_toNat (d : List Nat) : toNat (remove_leading_zeros d) = toNat d := by
  unfold remove_leading_zeros
  rw [dropZeros_val, List.reverse_reverse]

lemma rlz_canon (d : List Nat) (h0 : d ≠ []) (h10 : ∀ x ∈ d, x < 10) :
    Canon (remove_leading_zeros d) := by
  obtain ⟨hne, hshape⟩ := dropZeros_shape d.reverse (by simpa using h0)
  unfold remove_leading_zeros
  refine ⟨by simpa using hne, ?_, ?_⟩
  · intro x hx
    exact h10 x (List.mem_reverse.mp (dropZeros_mem d.reverse x (List.mem_reverse.mp hx)))
  · intro hlen
    rw [getLastD_reverse]
    rcases hshape with h1 | h1
    · simp only [List.length_reverse] at hlen; omega
    · exact h1

lemma rlz_of_canon (d : List Nat) (hc : Canon d) : remove_leading_zeros d = d := by
  rcases d with _ | ⟨x, xs⟩
  · exact absurd rfl hc.1
  rcases xs with _ | ⟨y, ys⟩
  · rfl
  · have hlast : (x :: y :: ys).getLastD 0 ≠ 0 := hc.2.2 (by simp)
    obtain ⟨e, es, hrev⟩ := List.exists_cons_of_ne_nil
      (show (x :: y :: ys).reverse ≠ [] by simp)
    have he : (x :: y :: ys).getLastD 0 = e := by
      have h2 := getLastD_reverse ((x :: y :: ys).reverse) 0
      rw [List.reverse_reverse, hrev] at h2
      simpa using h2
    unfold remove_leading_zeros
    rw [hrev, dropZeros_cons_of_ne e es (by rw [← he]; exact hlast), ← hrev,
      List.reverse_reverse]

/-! ### Comparison -/

lemma mul_compare_lt (X Y x y t : Nat) (hX : X < t) (hY : Y < t) :
    X + t * x < Y + t * y ↔ (x < y ∨ (x = y ∧ X < Y)) := by
  constructor
  · intro h
    by_cases hxy : x < y
    · exact Or.inl hxy
    · push_neg at hxy
      rcases Nat.lt_or_ge y x with hlt | hge
      · exfalso
        have h2 : t * (y + 1) ≤ t * x := Nat.mul_le_mul_left t hlt
        have h3 : t * (y + 1) = t * y + t := by ring
        omega
      · have hxy' : x = y := by omega
        subst hxy'
        exact Or.inr ⟨rfl, by omega⟩
  · rintro (h | ⟨rfl, h⟩)
    · have h2 : t * (x + 1) ≤ t * y := Nat.mul_le_mul_left t h
      have h3 : t * (x + 1) = t * x + t := by ring
      omega
    · omega

lemma ltMSB_iff : ∀ (u v : List Nat), u.length = v.length →
    (∀ x ∈ u, x < 10) → (∀ x ∈ v, x < 10) →
    (ltMSB u v = true ↔ toNat u.reverse < toNat v.reverse) := by
  intro u v
  induction u, v using ltMSB.induct with
  | case1 x xs y ys hne =>
    intro hlen h10u h10v
    have hlen' : xs.length = ys.length := by simpa using hlen
    have hX : toNat xs.reverse < 10 ^ xs.length :=
      (List.length_reverse xs) ▸ toNat_lt xs.reverse
        (fun z hz => h10u z (by simp at hz; simp [hz]))
    have hY : toNat ys.reverse < 10 ^ xs.length := by
      rw [hlen']
      exact (List.length_reverse ys) ▸ toNat_lt ys.reverse
        (fun z hz => h10v z (by simp at hz; simp [hz]))
    simp only [ltMSB, if_pos hne, decide_eq_true_eq]
    rw [List.reverse_cons, List.reverse_cons, toNat_append, toNat_append]
    simp only [List.length_reverse, hlen']
    rw [← hlen']
    have := mul_compare_lt (toNat xs.reverse) (toNat ys.reverse) (toNat [x]) (toNat [y])
      (10 ^ xs.length) hX hY
    rw [this]
    simp only [toNat_cons, toNat_nil]
    omega
  | case2 x xs y ys heq ih =>
    intro hlen h10u h10v
    have hxy : x = y := by omega
    subst hxy
    have hlen' : xs.length = ys.length := by simpa using hlen
    have hih := ih hlen' (fun z hz => h10u z (by simp [hz]))
      (fun z hz => h10v z (by simp [hz]))
    have hX : toNat xs.reverse < 10 ^ xs.length :=
      (List.length_reverse xs) ▸ toNat_lt xs.reverse
        (fun z hz => h10u z (by simp at hz; simp [hz]))
    have hY : toNat ys.reverse < 10 ^ xs.length := by
      rw [hlen']
      exact (List.length_reverse ys) ▸ toNat_lt ys.reverse
        (fun z hz => h10v z (by simp at hz; simp [hz]))
    simp only [ltMSB, if_neg heq]
    rw [hih, List.reverse_cons, List.reverse_cons, toNat_append, toNat_append]
    simp only [List.length_reverse, hlen']
    rw [← hlen']
    have := mul_compare_lt (toNat xs.reverse) (toNat ys.reverse) (toNat [x]) (toNat [x])
      (10 ^ xs.length) hX hY
    rw [this]
    omega
  | case3 t x h =>
    intro hlen h10u h10v
    cases t with
    | nil =>
      cases x with
      | nil => simp [ltMSB, toNat]
      | cons y ys => simp at hlen
    | cons z zs =>
      cases x with
      | nil => simp at hlen
      | cons y ys => exact (h z zs y ys rfl rfl).elim

lemma ltB_iff (a b : List Nat) (ha : Canon a) (hb : Canon b) :
    ltB a b = true ↔ toNat a < toNat b := by
  unfold ltB
  by_cases hlen : a.length = b.length
  · rw [if_neg (by omega)]
    have := ltMSB_iff a.reverse b.reverse (by simpa using hlen)
      (fun z hz => ha.2.1 z (List.mem_reverse.mp hz))
      (fun z hz => hb.2.1 z (List.mem_reverse.mp hz))
    rw [this, List.reverse_reverse, List.reverse_reverse]
  · rw [if_pos hlen]
    simp only [decide_eq_true_eq]
    constructor
    · intro hlt
      have hb2 : 2 ≤ b.length := by
        have : 1 ≤ a.length := List.length_pos.mpr ha.1
        omega
      rcases canon_ge b hb with rfl | hge
      · simp at hb2
      · have h1 : toNat a < 10 ^ a.length := toNat_lt a ha.2.1
        have h2 : (10:Nat) ^ a.length ≤ 10 ^ (b.length - 1) :=
          Nat.pow_le_pow_right (by omega) (by omega)
        omega
    · intro hv
      by_contra hge
      push_neg at hge
      have hlt : b.length < a.length := by omega
      have ha2 : 2 ≤ a.length := by
        have : 1 ≤ b.length := List.length_pos.mpr hb.1
        omega
      rcases canon_ge a ha with rfl | hge'
      · simp at ha2
      · have h1 : toNat b < 10 ^ b.length := toNat_lt b hb.2.1
        have h2 : (10:Nat) ^ b.length ≤ 10 ^ (a.length - 1) :=
          Nat.pow_le_pow_right (by omega) (by omega)
        omega

lemma canon_len_le (a b : List Nat) (ha : Canon a) (hb : Canon b)
    (h : toNat b ≤ toNat a) : b.length ≤ a.length := by
  by_contra hlt
  push_neg at hlt
  have hb2 : 2 ≤ b.length := by
    have : 1 ≤ a.length := by
      cases a with
      | nil => exact absurd rfl ha.1
      | cons _ _ => simp
    omega
  rcases canon_ge b hb with rfl | hge
  · simp at hb2
  · have h1 : toNat a < 10 ^ a.length := toNat_lt a ha.2.1
    have h2 : (10:Nat) ^ a.length ≤ 10 ^ (b.length - 1) :=
      Nat.pow_le_pow_right (by omega) (by omega)
    omega

/-! ### The native-integer constructor -/

lemma toDigitsLoop_toNat (n : Nat) : toNat (toDigitsLoop n) = n := by
  induction n using toDigitsLoop.induct with
  | case1 => rw [toDigitsLoop]; simp [toNat]
  | case2 x h ih =>
    rw [toDigitsLoop]
    simp only [h, dite_false, toNat_cons]
    omega

lemma toDigitsLoop_zero : toDigitsLoop 0 = [] := by
  rw [toDigitsLoop]
  simp

lemma toDigitsLoop_one : toDigitsLoop 1 = [1] := by
  rw [toDigitsLoop]
  norm_num
  exact toDigitsLoop_zero

lemma toDigitsLoop_digits (n : Nat) : ∀ x ∈ toDigitsLoop n, x < 10 := by
  induction n using toDigitsLoop.induct with
  | case1 => rw [toDigitsLoop]; simp
  | case2 x h ih =>
    rw [toDigitsLoop]
    simp only [h, dite_false]
    intro z hz
    rcases List.mem_cons.mp hz with rfl | hz
    · omega
    · exact ih z hz

lemma toDigitsLoop_ne_nil (n : Nat) (h : n ≠ 0) : toDigitsLoop n ≠ [] := by
  rw [toDigitsLoop]; simp [h]

lemma toDigitsLoop_last (n : Nat) (h : n ≠ 0) : (toDigitsLoop n).getLastD 0 ≠ 0 := by
  induction n using toDigitsLoop.induct with
  | case1 => exact absurd rfl h
  | case2 x hx ih =>
    rw [toDigitsLoop]
    simp only [hx, dite_false]
    by_cases h10 : x / 10 = 0
    · rw [h10, toDigitsLoop]
      simp only [dite_true]
      simp only [List.getLastD_cons, List.getLastD_nil]
      omega
    · rw [List.getLastD_cons,
        getLastD_of_ne_nil (toDigitsLoop (x / 10)) (toDigitsLoop_ne_nil _ h10) (x % 10) 0]
      exact ih h10

lemma fromNat_toNat (n : Nat) : toNat (fromNat n) = n := by
  unfold fromNat
  rw [toNat_cons, toDigitsLoop_toNat]
  omega

lemma fromNat_canon (n : Nat) : Canon (fromNat n) := by
  unfold fromNat
  by_cases h10 : n / 10 = 0
  · rw [h10, toDigitsLoop]
    simp only [dite_true]
    exact canon_singleton _ (by omega)
  · refine ⟨by simp, ?_, fun _ => ?_⟩
    · intro z hz
      rcases List.mem_cons.mp hz with rfl | hz
      · omega
      · exact toDigitsLoop_digits _ z hz
    · rw [List.getLastD_cons,
        getLastD_of_ne_nil (toDigitsLoop (n / 10)) (toDigitsLoop_ne_nil _ h10) (n % 10) 0]
      exact toDigitsLoop_last _ h10

lemma fromNat_zero : fromNat 0 = [0] := by
  unfold fromNat
  rw [show (0:Nat) / 10 = 0 by norm_num, toDigitsLoop_zero]

lemma fromNat_one : fromNat 1 = [1] := by
  unfold fromNat
  rw [show (1:Nat) / 10 = 0 by norm_num, toDigitsLoop_zero]

lemma toDigitsLoop_eq_digits (n : Nat) : toDigitsLoop n = Nat.digits 10 n := by
  induction n using toDigitsLoop.induct with
  | case1 => rw [toDigitsLoop]; simp
  | case2 x h ih =>
    rw [toDigitsLoop]
    simp only [h, dite_false]
    rw [ih, ← Nat.digits_def' (by omega : (1:Nat) < 10) (Nat.pos_of_ne_zero h)]

lemma fromNat_eq_digits (n : Nat) (h : n ≠ 0) : fromNat n = Nat.digits 10 n := by
  unfold fromNat
  rw [toDigitsLoop_eq_digits, ← Nat.digits_def' (by omega : (1:Nat) < 10) (Nat.pos_of_ne_zero h)]

/-! ### Addition -/

lemma addLoop_toNat : ∀ (a b : List Nat) (c : Nat),
    toNat (addLoop a b c) = toNat a + toNat b + c := by
  intro a b c
  induction a, b, c using addLoop.induct with
  | case1 x xs y ys c ih =>
    simp only [addLoop, toNat_cons] at ih ⊢
    omega
  | case2 x xs c ih =>
    simp only [addLoop, toNat_cons, toNat_nil] at ih ⊢
    omega
  | case3 y ys c ih =>
    simp only [addLoop, toNat_cons, toNat_nil] at ih ⊢
    omega
  | case4 c =>
    simp only [addLoop, toNat_nil, toDigitsLoop_toNat]
    omega

lemma addLoop_digits : ∀ (a b : List Nat) (c : Nat), ∀ z ∈ addLoop a b c, z < 10 := by
  intro a b c
  induction a, b, c using addLoop.induct with
  | case1 x xs y ys c ih =>
    simp only [addLoop]
    intro z hz
    rcases List.mem_cons.mp hz with rfl | hz
    · omega
    · exact ih z hz
  | case2 x xs c ih =>
    simp only [addLoop]
    intro z hz
    rcases List.mem_cons.mp hz with rfl | hz
    · omega
    · exact ih z hz
  | case3 y ys c ih =>
    simp only [addLoop]
    intro z hz
    rcases List.mem_cons.mp hz with rfl | hz
    · omega
    · exact ih z hz
  | case4 c =>
    simp only [addLoop]
    exact toDigitsLoop_digits c

lemma addLoop_big : ∀ (a b : List Nat) (c : Nat),
    (∀ z ∈ a, z < 10) → (∀ z ∈ b, z < 10) → c ≤ 1 →
    ((addLoop a b c).length = max a.length b.length ∧
      toNat a + toNat b + c < 10 ^ max a.length b.length) ∨
    ((addLoop a b c).length = max a.length b.length + 1 ∧
      10 ^ max a.length b.length ≤ toNat a + toNat b + c) := by
  intro a b c
  induction a, b, c using addLoop.induct with
  | case1 x xs y ys c ih =>
    intro h10a h10b hc
    have hx : x < 10 := h10a x (by simp)
    have hy : y < 10 := h10b y (by simp)
    have hc' : (x + y + c) / 10 ≤ 1 := by omega
    have hM : max (xs.length + 1) (ys.length + 1) = max xs.length ys.length + 1 := by omega
    have hpow : (10:Nat) ^ (max xs.length ys.length + 1) =
        10 ^ max xs.length ys.length * 10 := pow_succ 10 _
    have hstep : addLoop (x :: xs) (y :: ys) c =
        (x + y + c) % 10 :: addLoop xs ys ((x + y + c) / 10) := by
      simp only [addLoop]
    rcases ih (fun z hz => h10a z (by simp [hz])) (fun z hz => h10b z (by simp [hz])) hc'
      with ⟨hlen, hval⟩ | ⟨hlen, hval⟩
    · left
      refine ⟨?_, ?_⟩
      · rw [hstep]; simp only [List.length_cons, hlen]; omega
      · simp only [List.length_cons, toNat_cons, hM, hpow]
        omega
    · right
      refine ⟨?_, ?_⟩
      · rw [hstep]; simp only [List.length_cons, hlen]; omega
      · simp only [List.length_cons, toNat_cons, hM, hpow]
        omega
  | case2 x xs c ih =>
    intro h10a h10b hc
    have hx : x < 10 := h10a x (by simp)
    have hc' : (x + c) / 10 ≤ 1 := by omega
    have hM : max (xs.length + 1) 0 = max xs.length 0 + 1 := by omega
    have hpow : (10:Nat) ^ (max xs.length 0 + 1) = 10 ^ max xs.length 0 * 10 := pow_succ 10 _
    have hstep : addLoop (x :: xs) [] c = (x + c) % 10 :: addLoop xs [] ((x + c) / 10) := by
      simp only [addLoop]
    rcases ih (fun z hz => h10a z (by simp [hz])) h10b hc'
      with ⟨hlen, hval⟩ | ⟨hlen, hval⟩
    · left
      refine ⟨?_, ?_⟩
      · rw [hstep]; simp only [List.length_cons, List.length_nil, hlen]; omega
      · simp only [List.length_cons, List.length_nil, toNat_cons, toNat_nil, hM, hpow]
          at hval ⊢
        omega
    · right
      refine ⟨?_, ?_⟩
      · rw [hstep]; simp only [List.length_cons, List.length_nil, hlen]; omega
      · simp only [List.length_cons, List.length_nil, toNat_cons, toNat_nil, hM, hpow]
          at hval ⊢
        omega
  | case3 y ys c ih =>
    intro h10a h10b hc
    have hy : y < 10 := h10b y (by simp)
    have hc' : (y + c) / 10 ≤ 1 := by omega
    have hM : max 0 (ys.length + 1) = max 0 ys.length + 1 := by omega
    have hpow : (10:Nat) ^ (max 0 ys.length + 1) = 10 ^ max 0 ys.length * 10 := pow_succ 10 _
    have hstep : addLoop [] (y :: ys) c = (y + c) % 10 :: addLoop [] ys ((y + c) / 10) := by
      simp only [addLoop]
    rcases ih h10a (fun z hz => h10b z (by simp [hz])) hc'
      with ⟨hlen, hval⟩ | ⟨hlen, hval⟩
    · left
      refine ⟨?_, ?_⟩
      · rw [hstep]; simp only [List.length_cons, List.length_nil, hlen]; omega
      · simp only [List.length_cons, List.length_nil, toNat_cons, toNat_nil, hM, hpow]
          at hval ⊢
        omega
    · right
      refine ⟨?_, ?_⟩
      · rw [hstep]; simp only [List.length_cons, List.length_nil, hlen]; omega
      · simp only [List.length_cons, List.length_nil, toNat_cons, toNat_nil, hM, hpow]
          at hval ⊢
        omega
  | case4 c =>
    intro h10a h10b hc
    have hstep : addLoop [] [] c = toDigitsLoop c := by simp only [addLoop]
    interval_cases c
    · left
      refine ⟨?_, ?_⟩
      · rw [hstep, toDigitsLoop_zero]; simp
      · simp [toNat]
    · right
      refine ⟨?_, ?_⟩
      · rw [hstep, toDigitsLoop_one]; simp
      · simp [toNat]

lemma add_toNat (a b : List Nat) : toNat (add a b) = toNat a + toNat b := by
  unfold add
  rw [addLoop_toNat]
  omega

lemma add_canon (a b : List Nat) (ha : Canon a) (hb : Canon b) : Canon (add a b) := by
  unfold add
  have hd := addLoop_digits a b 0
  have hv := addLoop_toNat a b 0
  have hla : 1 ≤ a.length := List.length_pos.mpr ha.1
  have hlb : 1 ≤ b.length := List.length_pos.mpr hb.1
  rcases addLoop_big a b 0 ha.2.1 hb.2.1 (by omega) with ⟨hlen, hlt⟩ | ⟨hlen, hge⟩
  · by_cases hM : max a.length b.length = 1
    · obtain ⟨z, hz⟩ := List.length_eq_one.mp (by rw [hlen, hM])
      rw [hz]
      exact canon_singleton z (hd z (by rw [hz]; simp))
    · have hbig : 10 ^ (max a.length b.length - 1) ≤ toNat a + toNat b + 0 := by
        rcases max_choice a.length b.length with hmax | hmax
        · rcases canon_ge a ha with rfl | hge'
          · have h1 : ([0] : List Nat).length = 1 := rfl
            rw [h1] at hmax hM
            omega
          · rw [hmax]; omega
        · rcases canon_ge b hb with rfl | hge'
          · have h1 : ([0] : List Nat).length = 1 := rfl
            rw [h1] at hmax hM
            omega
          · rw [hmax]; omega
      refine canon_of_big _ ?_ hd ?_
      · exact List.length_pos.mp (by omega)
      · rw [hlen, hv]; omega
  · refine canon_of_big _ ?_ hd ?_
    · exact List.length_pos.mp (by omega)
    · rw [hlen, hv]
      have : max a.length b.length + 1 - 1 = max a.length b.length := by omega
      rw [this]; omega

/-! ### Subtraction -/

lemma ltB_false_iff (a b : List Nat) (ha : Canon a) (hb : Canon b) :
    ltB a b = false ↔ toNat b ≤ toNat a := by
  have h := ltB_iff a b ha hb
  constructor
  · intro hf
    by_contra hc
    push_neg at hc
    rw [h.mpr hc] at hf
    cases hf
  · intro hle
    cases hlt : ltB a b
    · rfl
    · exact absurd (h.mp hlt) (by omega)

lemma geB_iff (a b : List Nat) (ha : Canon a) (hb : Canon b) :
    geB a b = true ↔ toNat b ≤ toNat a := by
  unfold geB
  rw [← ltB_false_iff a b ha hb]
  cases ltB a b <;> simp

lemma subLoop_length : ∀ (a b : List Nat) (w : Nat), (subLoop a b w).length = a.length := by
  intro a b w
  induction a, b, w using subLoop.induct with
  | case1 b w => simp [subLoop]
  | case2 x xs w h ih => simp only [subLoop, if_pos h, List.length_cons, ih]
  | case3 x xs w h ih => simp only [subLoop, if_neg h, List.length_cons, ih]
  | case4 x xs y ys w h ih => simp only [subLoop, if_pos h, List.length_cons, ih]
  | case5 x xs y ys w h ih => simp only [subLoop, if_neg h, List.length_cons, ih]

lemma subLoop_digits : ∀ (a b : List Nat) (w : Nat), (∀ z ∈ a, z < 10) →
    ∀ z ∈ subLoop a b w, z < 10 := by
  intro a b w
  induction a, b, w using subLoop.induct with
  | case1 b w => intro _ z hz; simp [subLoop] at hz
  | case2 x xs w h ih =>
    intro h10 z hz
    simp only [subLoop, if_pos h] at hz
    rcases List.mem_cons.mp hz with rfl | hz
    · omega
    · exact ih (fun u hu => h10 u (by simp [hu])) z hz
  | case3 x xs w h ih =>
    intro h10 z hz
    have hx : x < 10 := h10 x (by simp)
    simp only [subLoop, if_neg h] at hz
    rcases List.mem_cons.mp hz with rfl | hz
    · omega
    · exact ih (fun u hu => h10 u (by simp [hu])) z hz
  | case4 x xs y ys w h ih =>
    intro h10 z hz
    simp only [subLoop, if_pos h] at hz
    rcases List.mem_cons.mp hz with rfl | hz
    · omega
    · exact ih (fun u hu => h10 u (by simp [hu])) z hz
  | case5 x xs y ys w h ih =>
    intro h10 z hz
    have hx : x < 10 := h10 x (by simp)
    simp only [subLoop, if_neg h] at hz
    rcases List.mem_cons.mp hz with rfl | hz
    · omega
    · exact ih (fun u hu => h10 u (by simp [hu])) z hz

lemma subLoop_toNat : ∀ (a b : List Nat) (w : Nat), (∀ z ∈ a, z < 10) →
    (∀ z ∈ b, z < 10) → w ≤ 1 → b.length ≤ a.length → toNat b + w ≤ toNat a →
    toNat (subLoop a b w) = toNat a - toNat b - w := by
  intro a b w
  induction a, b, w using subLoop.induct with
  | case1 b w =>
    intro _ _ hw hlen hle
    have hb : b = [] := List.length_eq_zero.mp (by simpa using hlen)
    subst hb
    simp only [subLoop, toNat_nil] at hle ⊢
    omega
  | case2 x xs w h ih =>
    intro h10a _ hw hlen hle
    have hx : x < 10 := h10a x (by simp)
    simp only [toNat_cons, toNat_nil] at hle
    have hrec := ih (fun u hu => h10a u (by simp [hu])) (by simp) (by omega) (by simp)
      (by simp only [toNat_nil]; omega)
    simp only [subLoop, if_pos h, toNat_cons, hrec, toNat_nil]
    omega
  | case3 x xs w h ih =>
    intro h10a _ hw hlen hle
    have hx : x < 10 := h10a x (by simp)
    simp only [toNat_cons, toNat_nil] at hle
    have hrec := ih (fun u hu => h10a u (by simp [hu])) (by simp) (by omega) (by simp)
      (by simp only [toNat_nil]; omega)
    simp only [subLoop, if_neg h, toNat_cons, hrec, toNat_nil]
    omega
  | case4 x xs y ys w h ih =>
    intro h10a h10b hw hlen hle
    have hx : x < 10 := h10a x (by simp)
    have hy : y < 10 := h10b y (by simp)
    simp only [toNat_cons] at hle
    have hxy : toNat ys + 1 ≤ toNat xs := by omega
    have hrec := ih (fun u hu => h10a u (by simp [hu])) (fun u hu => h10b u (by simp [hu]))
      (by omega) (by simpa using hlen) hxy
    simp only [subLoop, if_pos h, toNat_cons, hrec]
    omega
  | case5 x xs y ys w h ih =>
    intro h10a h10b hw hlen hle
    have hx : x < 10 := h10a x (by simp)
    have hy : y < 10 := h10b y (by simp)
    simp only [toNat_cons] at hle
    have hxy : toNat ys ≤ toNat xs := by omega
    have hrec := ih (fun u hu => h10a u (by simp [hu])) (fun u hu => h10b u (by simp [hu]))
      (by omega) (by simpa using hlen) (by omega)
    simp only [subLoop, if_neg h, toNat_cons, hrec]
    omega

lemma subU_toNat (a b : List Nat) (h10a : ∀ z ∈ a, z < 10) (h10b : ∀ z ∈ b, z < 10)
    (hlen : b.length ≤ a.length) (hle : toNat b ≤ toNat a) :
    toNat (subU a b) = toNat a - toNat b := by
  unfold subU
  rw [rlz_toNat, subLoop_toNat a b 0 h10a h10b (by omega) hlen (by omega)]
  omega

lemma subU_canon (a b : List Nat) (h0 : a ≠ []) (h10a : ∀ z ∈ a, z < 10) :
    Canon (subU a b) := by
  unfold subU
  refine rlz_canon _ ?_ (subLoop_digits a b 0 h10a)
  have := subLoop_length a b 0
  intro hnil
  rw [hnil] at this
  simp at this
  exact h0 (List.length_eq_zero.mp this.symm)

lemma sub_err (a b : List Nat) (ha : Canon a) (hb : Canon b) (h : toNat a < toNat b) :
    sub a b = .error .underflow := by
  unfold sub
  rw [if_pos ((ltB_iff a b ha hb).mpr h)]

lemma sub_ok (a b : List Nat) (ha : Canon a) (hb : Canon b) (h : toNat b ≤ toNat a) :
    sub a b = .ok (subU a b) ∧ toNat (subU a b) = toNat a - toNat b ∧ Canon (subU a b) := by
  have hlt : ltB a b = false := (ltB_false_iff a b ha hb).mpr h
  refine ⟨?_, ?_, ?_⟩
  · unfold sub
    rw [hlt]
    simp
  · exact subU_toNat a b ha.2.1 hb.2.1 (canon_len_le a b ha hb h) h
  · exact subU_canon a b ha.1 ha.2.1

/-! ### Multiplication -/

lemma getD_set_self (l : List Nat) (k v : Nat) (h : k < l.length) :
    (l.set k v).getD k 0 = v := by
  simp [List.getD_eq_getElem?_getD, List.getElem?_set_self, h]

lemma getD_set_ne (l : List Nat) (k m v : Nat) (h : k ≠ m) :
    (l.set k v).getD m 0 = l.getD m 0 := by
  simp [List.getD_eq_getElem?_getD, List.getElem?_set_ne h]

lemma toNat_set (l : List Nat) (k v : Nat) (h : k < l.length) :
    toNat (l.set k v) + l.getD k 0 * 10 ^ k = toNat l + v * 10 ^ k := by
  induction l generalizing k with
  | nil => simp at h
  | cons x xs ih =>
    cases k with
    | zero => simp [toNat_cons]; ring
    | succ k =>
      have hk : k < xs.length := by simpa using h
      have hih := ih k hk
      simp only [List.set_cons_succ, toNat_cons, List.getD_cons_succ, pow_succ]
      have e1 : xs.getD k 0 * (10 ^ k * 10) = xs.getD k 0 * 10 ^ k * 10 := by ring
      have e2 : v * (10 ^ k * 10) = v * 10 ^ k * 10 := by ring
      rw [e1, e2]
      omega

lemma getD_le_toNat (l : List Nat) (k : Nat) : l.getD k 0 * 10 ^ k ≤ toNat l := by
  induction l generalizing k with
  | nil => simp
  | cons x xs ih =>
    cases k with
    | zero => simp [toNat_cons]
    | succ k =>
      have hih := ih k
      simp only [List.getD_cons_succ, toNat_cons, pow_succ]
      have e1 : xs.getD k 0 * (10 ^ k * 10) = xs.getD k 0 * 10 ^ k * 10 := by ring
      rw [e1]
      omega

lemma digits_lt_of_getD : ∀ (l : List Nat), (∀ m, m < l.length → l.getD m 0 < 10) →
    ∀ x ∈ l, x < 10 := by
  intro l
  induction l with
  | nil => simp
  | cons a as ih =>
    intro h x hx
    rcases List.mem_cons.mp hx with rfl | hx
    · exact h 0 (by simp)
    · exact ih (fun m hm => by
        have := h (m + 1) (by simpa using hm)
        simpa using this) x hx

lemma mulStep_length (res : List Nat) (k p : Nat) :
    (mulStep res k p).length = res.length := by
  simp [mulStep, List.length_set]

lemma mulStep_toNat (res : List Nat) (k p : Nat) (h : k + 1 < res.length) :
    toNat (mulStep res k p) = toNat res + p * 10 ^ k := by
  simp only [mulStep]
  have hk : k < res.length := by omega
  set G := res.getD k 0 with hG
  set r1 := res.set k (G + p) with hr1
  have hlen1 : r1.length = res.length := by rw [hr1]; simp
  have hg1 : r1.getD k 0 = G + p := by rw [hr1]; exact getD_set_self res k (G + p) hk
  set q := r1.getD (k + 1) 0 with hq
  set r2 := r1.set (k + 1) (q + r1.getD k 0 / 10) with hr2
  have hlen2 : r2.length = res.length := by rw [hr2]; simp [hlen1]
  have hg3 : r2.getD k 0 = G + p := by
    rw [hr2, getD_set_ne _ _ _ _ (by omega)]; exact hg1
  have e1 : toNat r1 + G * 10 ^ k = toNat res + (G + p) * 10 ^ k := by
    rw [hr1]; exact toNat_set res k (G + p) hk
  have e2 : toNat r2 + q * 10 ^ (k + 1)
      = toNat r1 + (q + r1.getD k 0 / 10) * 10 ^ (k + 1) := by
    rw [hr2]; exact toNat_set r1 (k + 1) _ (by omega)
  have e3 : toNat (r2.set k (r2.getD k 0 % 10)) + r2.getD k 0 * 10 ^ k
      = toNat r2 + (r2.getD k 0 % 10) * 10 ^ k := toNat_set r2 k _ (by omega)
  rw [hg1] at e2
  rw [hg3] at e3 ⊢
  have key : (G + p) * 10 ^ k
      = (G + p) % 10 * 10 ^ k + (G + p) / 10 * 10 ^ (k + 1) := by
    conv_lhs => rw [← Nat.mod_add_div (G + p) 10]
    rw [pow_succ]
    ring
  have expand1 : (G + p) * 10 ^ k = G * 10 ^ k + p * 10 ^ k := by ring
  have expand2 : (q + (G + p) / 10) * 10 ^ (k + 1)
      = q * 10 ^ (k + 1) + (G + p) / 10 * 10 ^ (k + 1) := by ring
  rw [expand1] at e1 key
  rw [expand2] at e2
  omega

lemma mulStep_getD_k (res : List Nat) (k p : Nat) (h : k + 1 < res.length) :
    (mulStep res k p).getD k 0 = (res.getD k 0 + p) % 10 := by
  simp only [mulStep]
  have hk : k < res.length := by omega
  have hg1 : (res.set k (res.getD k 0 + p)).getD k 0 = res.getD k 0 + p :=
    getD_set_self res k _ hk
  rw [getD_set_self _ k _ (by simp [List.length_set]; omega),
    getD_set_ne _ _ _ _ (by omega), hg1]

lemma mulStep_getD_other (res : List Nat) (k p m : Nat) (h1 : m ≠ k) (h2 : m ≠ k + 1) :
    (mulStep res k p).getD m 0 = res.getD m 0 := by
  simp only [mulStep]
  rw [getD_set_ne _ _ _ _ (fun he => h1 he.symm),
    getD_set_ne _ _ _ _ (fun he => h2 he.symm),
    getD_set_ne _ _ _ _ (fun he => h1 he.symm)]

lemma mulInnerGo_length (ai i : Nat) : ∀ (b : List Nat) (j : Nat) (res : List Nat),
    (mulInnerGo ai i b j res).length = res.length := by
  intro b
  induction b with
  | nil => intro j res; rfl
  | cons bj bs ih =>
    intro j res
    show (mulInnerGo ai i bs (j + 1) (mulStep res (i + j) (ai * bj))).length = _
    rw [ih, mulStep_length]

lemma mulInnerGo_toNat (ai i : Nat) : ∀ (b : List Nat) (j : Nat) (res : List Nat),
    i + j + b.length < res.length →
    toNat (mulInnerGo ai i b j res) = toNat res + ai * toNat b * 10 ^ (i + j) := by
  intro b
  induction b with
  | nil => intro j res _; simp [mulInnerGo, toNat_nil]
  | cons bj bs ih =>
    intro j res hlen
    show toNat (mulInnerGo ai i bs (j + 1) (mulStep res (i + j) (ai * bj))) = _
    rw [ih (j + 1) _ (by rw [mulStep_length]; simp at hlen ⊢; omega)]
    rw [mulStep_toNat res (i + j) _ (by simp at hlen; omega)]
    rw [toNat_cons]
    have : i + (j + 1) = (i + j) + 1 := by omega
    rw [this, pow_succ]
    ring

lemma mulInnerGo_getD (ai i : Nat) : ∀ (b : List Nat) (j : Nat) (res : List Nat),
    i + j + b.length < res.length →
    (∀ m, m < i + j → (mulInnerGo ai i b j res).getD m 0 = res.getD m 0) ∧
    (∀ m, i + j ≤ m → m < i + j + b.length → (mulInnerGo ai i b j res).getD m 0 < 10) := by
  intro b
  induction b with
  | nil =>
    intro j res _
    exact ⟨fun m _ => rfl, fun m h1 h2 => by simp at h2; omega⟩
  | cons bj bs ih =>
    intro j res hlen
    have hlen' : i + (j + 1) + bs.length < (mulStep res (i + j) (ai * bj)).length := by
      rw [mulStep_length]; simp at hlen; omega
    obtain ⟨ih1, ih2⟩ := ih (j + 1) (mulStep res (i + j) (ai * bj)) hlen'
    have hstep : mulInnerGo ai i (bj :: bs) j res
        = mulInnerGo ai i bs (j + 1) (mulStep res (i + j) (ai * bj)) := rfl
    constructor
    · intro m hm
      rw [hstep, ih1 m (by omega), mulStep_getD_other res _ _ m (by omega) (by omega)]
    · intro m h1 h2
      by_cases hm : m = i + j
      · subst hm
        rw [hstep, ih1 _ (by omega), mulStep_getD_k res _ _ (by simp at hlen; omega)]
        omega
      · exact ih2 m (by omega) (by simp at h2 ⊢; omega)

lemma mulOuterGo_length : ∀ (as : List Nat) (i : Nat) (b res : List Nat),
    (mulOuterGo as i b res).length = res.length := by
  intro as
  induction as with
  | nil => intro i b res; rfl
  | cons ai arest ih =>
    intro i b res
    show (mulOuterGo arest (i + 1) b (mulInnerGo ai i b 0 res)).length = _
    rw [ih, mulInnerGo_length]

lemma mulOuterGo_toNat : ∀ (as : List Nat) (i : Nat) (b res : List Nat),
    i + as.length + b.length ≤ res.length →
    toNat (mulOuterGo as i b res) = toNat res + toNat as * toNat b * 10 ^ i := by
  intro as
  induction as with
  | nil => intro i b res _; simp [mulOuterGo, toNat_nil]
  | cons ai arest ih =>
    intro i b res hlen
    show toNat (mulOuterGo arest (i + 1) b (mulInnerGo ai i b 0 res)) = _
    rw [ih (i + 1) b _ (by rw [mulInnerGo_length]; simp at hlen; omega)]
    rw [mulInnerGo_toNat ai i b 0 res (by simp at hlen ⊢; omega)]
    rw [toNat_cons, pow_succ]
    ring

lemma mulOuterGo_bounds : ∀ (as : List Nat) (i : Nat) (b res : List Nat),
    b ≠ [] → as ≠ [] → i + as.length + b.length ≤ res.length →
    (∀ m, m < i → res.getD m 0 < 10) →
    ∀ m, m < i + as.length + b.length - 1 → (mulOuterGo as i b res).getD m 0 < 10 := by
  intro as
  induction as with
  | nil => intro i b res _ hne; exact absurd rfl hne
  | cons ai arest ih =>
    intro i b res hb _ hlen hbase m hm
    have hlb : 1 ≤ b.length := List.length_pos.mpr hb
    have hinlen : i + 0 + b.length < res.length := by simp at hlen; omega
    obtain ⟨h1, h2⟩ := mulInnerGo_getD ai i b 0 res (by simpa using hinlen)
    cases arest with
    | nil =>
      show (mulInnerGo ai i b 0 res).getD m 0 < 10
      simp only [List.length_cons, List.length_nil] at hm
      by_cases hmi : m < i
      · rw [h1 m (by omega)]
        exact hbase m hmi
      · exact h2 m (by omega) (by omega)
    | cons aj arest' =>
      show (mulOuterGo (aj :: arest') (i + 1) b (mulInnerGo ai i b 0 res)).getD m 0 < 10
      refine ih (i + 1) b (mulInnerGo ai i b 0 res) hb (by simp) ?_ ?_ m ?_
      · rw [mulInnerGo_length]; simp at hlen ⊢; omega
      · intro m' hm'
        by_cases hmi : m' < i
        · rw [h1 m' (by omega)]
          exact hbase m' hmi
        · exact h2 m' (by omega) (by omega)
      · simp at hm ⊢; omega

lemma toNat_replicate_zero : ∀ (n : Nat), toNat (List.replicate n 0) = 0 := by
  intro n
  induction n with
  | zero => rfl
  | succ n ih => simp [List.replicate_succ, toNat_cons, ih]

lemma mul_toNat (a b : List Nat) :
    toNat (mul a b) = toNat a * toNat b := by
  cases hz : (is_zero a || is_zero b) with
  | true =>
    have hm : mul a b = fromNat 0 := by unfold mul; rw [hz]; simp
    rw [hm, fromNat_zero]
    rcases Bool.or_eq_true_iff.mp hz with h | h
    · rw [(is_zero_iff_eq a).mp h]; simp [toNat]
    · rw [(is_zero_iff_eq b).mp h]; simp [toNat]
  | false =>
    have hm : mul a b = remove_leading_zeros
        (mulOuterGo a 0 b (List.replicate (a.length + b.length) 0)) := by
      unfold mul; rw [hz]; simp
    rw [hm, rlz_toNat, mulOuterGo_toNat a 0 b _ (by simp), toNat_replicate_zero]
    simp

lemma mul_canon (a b : List Nat) (ha : Canon a) (hb : Canon b) : Canon (mul a b) := by
  cases hz : (is_zero a || is_zero b) with
  | true =>
    have hm : mul a b = fromNat 0 := by unfold mul; rw [hz]; simp
    rw [hm, fromNat_zero]
    exact canon_singleton 0 (by omega)
  | false =>
    have hm : mul a b = remove_leading_zeros
        (mulOuterGo a 0 b (List.replicate (a.length + b.length) 0)) := by
      unfold mul; rw [hz]; simp
    rw [hm]
    set R := List.replicate (a.length + b.length) 0 with hR
    set f := mulOuterGo a 0 b R with hf
    have hla : 1 ≤ a.length := List.length_pos.mpr ha.1
    have hlb : 1 ≤ b.length := List.length_pos.mpr hb.1
    have hlenR : R.length = a.length + b.length := by rw [hR]; simp
    have hlenf : f.length = a.length + b.length := by rw [hf, mulOuterGo_length, hlenR]
    have hval : toNat f = toNat a * toNat b := by
      rw [hf, mulOuterGo_toNat a 0 b R (by rw [hlenR]; simp), hR, toNat_replicate_zero]
      simp
    have hvb : toNat f < 10 ^ (a.length + b.length) := by
      rw [hval, pow_add]
      have h1 : toNat a < 10 ^ a.length := toNat_lt a ha.2.1
      have h2 : toNat b < 10 ^ b.length := toNat_lt b hb.2.1
      calc toNat a * toNat b < 10 ^ a.length * 10 ^ b.length := by
            apply Nat.mul_lt_mul_of_lt_of_lt h1 h2
        _ = 10 ^ a.length * 10 ^ b.length := rfl
    have hbounds : ∀ m, m < f.length → f.getD m 0 < 10 := by
      intro m hm
      by_cases htop : m = a.length + b.length - 1
      · subst htop
        by_contra hge
        push_neg at hge
        have h1 := getD_le_toNat f (a.length + b.length - 1)
        have h2 : (10:Nat) * 10 ^ (a.length + b.length - 1) ≤
            f.getD (a.length + b.length - 1) 0 * 10 ^ (a.length + b.length - 1) :=
          Nat.mul_le_mul_right _ hge
        have h3 : (10:Nat) * 10 ^ (a.length + b.length - 1) = 10 ^ (a.length + b.length) := by
          rw [← pow_succ']
          congr 1
          omega
        omega
      · refine mulOuterGo_bounds a 0 b R hb.1 ha.1 (by rw [hlenR]; simp) ?_ m ?_
        · intro m' hm'; omega
        · rw [hlenf] at hm; omega
    refine rlz_canon f ?_ (digits_lt_of_getD f hbounds)
    intro hnil
    rw [hnil] at hlenf
    simp at hlenf
    omega

/-! ### Division -/

lemma canon_rlz_cons (d : Nat) (cur : List Nat) (hd : d < 10) (hc : Canon cur) :
    Canon (remove_leading_zeros (d :: cur)) := by
  refine rlz_canon _ (by simp) ?_
  intro z hz
  rcases List.mem_cons.mp hz with rfl | hz
  · exact hd
  · exact hc.2.1 z hz

lemma rlz_cons_toNat (d : Nat) (cur : List Nat) :
    toNat (remove_leading_zeros (d :: cur)) = d + 10 * toNat cur := by
  rw [rlz_toNat, toNat_cons]

lemma canon_zero : Canon [0] := by decide

lemma is_zero_false_pos (b : List Nat) (hb : Canon b) (hz : ¬ is_zero b = true) :
    0 < toNat b := by
  rcases Nat.eq_zero_or_pos (toNat b) with h | h
  · exact absurd ((is_zero_iff b hb).mpr h) hz
  · exact h

/-- The repeated-subtraction loop of `operator/=`:
`while (current_dividend >= divisor) { current_dividend -= divisor; count++; }`,
returning the count and the final running remainder.  The canonicity proofs
carried along do not influence the computed value; they provide the
comparison semantics needed for termination. -/
def subTimes (b : List Nat) (hb : Canon b) (hz : ¬ is_zero b = true)
    (cur : List Nat) (hc : Canon cur) : Nat × { d : List Nat // Canon d } :=
  if h : geB cur b = true then
    let p := subTimes b hb hz (subU cur b) (subU_canon cur b hc.1 hc.2.1)
    (p.1 + 1, p.2)
  else (0, ⟨cur, hc⟩)
termination_by toNat cur
decreasing_by
  have hge : toNat b ≤ toNat cur := (geB_iff cur b hc hb).mp h
  have hpos : 0 < toNat b := is_zero_false_pos b hb hz
  have hv := subU_toNat cur b hc.2.1 hb.2.1 (canon_len_le cur b hc hb hge) hge
  omega

lemma subTimes_spec (b : List Nat) (hb : Canon b) (hz : ¬ is_zero b = true) :
    ∀ (cur : List Nat) (hc : Canon cur),
      (subTimes b hb hz cur hc).1 = toNat cur / toNat b ∧
      toNat (subTimes b hb hz cur hc).2.1 = toNat cur % toNat b := by
  intro cur hc
  induction cur, hc using subTimes.induct b hb hz with
  | case1 cur hc h ih =>
    have hge : toNat b ≤ toNat cur := (geB_iff cur b hc hb).mp h
    have hpos : 0 < toNat b := is_zero_false_pos b hb hz
    have hsub := subU_toNat cur b hc.2.1 hb.2.1 (canon_len_le cur b hc hb hge) hge
    have hstep : subTimes b hb hz cur hc =
        ((subTimes b hb hz (subU cur b) (subU_canon cur b hc.1 hc.2.1)).1 + 1,
          (subTimes b hb hz (subU cur b) (subU_canon cur b hc.1 hc.2.1)).2) := by
      rw [subTimes, dif_pos h]
    obtain ⟨ih1, ih2⟩ := ih
    rw [hstep]
    constructor
    · show (subTimes b hb hz (subU cur b) _).1 + 1 = _
      rw [ih1, hsub, Nat.div_eq_sub_div hpos hge]
    · show toNat (subTimes b hb hz (subU cur b) _).2.1 = _
      rw [ih2, hsub, Nat.mod_eq_sub_mod hge]
  | case2 cur hc h =>
    have hlt : toNat cur < toNat b := by
      unfold geB at h
      simp only [Bool.not_eq_true', Bool.not_eq_false] at h
      exact (ltB_iff cur b hc hb).mp h
    have hstep : subTimes b hb hz cur hc = (0, ⟨cur, hc⟩) := by
      rw [subTimes, dif_neg h]
    rw [hstep]
    exact ⟨(Nat.div_eq_of_lt hlt).symm, (Nat.mod_eq_of_lt hlt).symm⟩

/-- The digit-scanning loop of `operator/=`: for each dividend digit, from
most significant to least significant, prepend it to the running partial
remainder (`insert` at the least-significant position), normalize, find
the quotient digit by repeated subtraction, and push it onto the quotient
accumulator. -/
def divGo (b : List Nat) (hb : Canon b) (hz : ¬ is_zero b = true) :
    (msb : List Nat) → (∀ x ∈ msb, x < 10) → (cur : List Nat) → Canon cur →
    (qacc : List Nat) → List Nat
  | [], _, _, _, qacc => qacc
  | d :: rest, hm, cur, hc, qacc =>
    let p := subTimes b hb hz (remove_leading_zeros (d :: cur))
      (canon_rlz_cons d cur (hm d (List.mem_cons_self d rest)) hc)
    divGo b hb hz rest (fun x hx => hm x (List.mem_cons_of_mem d hx)) p.2.1 p.2.2
      (qacc ++ [p.1])

lemma divGo_spec (b : List Nat) (hb : Canon b) (hz : ¬ is_zero b = true) :
    ∀ (msb : List Nat) (hm : ∀ x ∈ msb, x < 10) (cur : List Nat) (hc : Canon cur)
      (qacc : List Nat), toNat cur < toNat b →
    ∃ ds : List Nat, divGo b hb hz msb hm cur hc qacc = qacc ++ ds ∧
      ds.length = msb.length ∧ (∀ x ∈ ds, x < 10) ∧
      toNat ds.reverse = (toNat cur * 10 ^ msb.length + toNat msb.reverse) / toNat b := by
  intro msb
  induction msb with
  | nil =>
    intro hm cur hc qacc hlt
    refine ⟨[], by simp [divGo], by simp, by simp, ?_⟩
    simp only [List.length_nil, pow_zero, Nat.mul_one, List.reverse_nil, toNat_nil,
      Nat.add_zero]
    rw [Nat.div_eq_of_lt hlt]
  | cons d rest ih =>
    intro hm cur hc qacc hlt
    have hpos : 0 < toNat b := is_zero_false_pos b hb hz
    have hd : d < 10 := hm d (List.mem_cons_self d rest)
    set cur1 := remove_leading_zeros (d :: cur) with hcur1
    have hc1 : Canon cur1 := canon_rlz_cons d cur (hm d (List.mem_cons_self d rest)) hc
    have hv1 : toNat cur1 = d + 10 * toNat cur := rlz_cons_toNat d cur
    obtain ⟨hq, hr⟩ := subTimes_spec b hb hz cur1 hc1
    set p := subTimes b hb hz cur1 hc1 with hp
    have hv1lt : toNat cur1 < 10 * toNat b := by omega
    have hqlt : p.1 < 10 := by
      rw [hq]
      rw [Nat.div_lt_iff_lt_mul hpos]
      omega
    have hrlt : toNat p.2.1 < toNat b := by rw [hr]; exact Nat.mod_lt _ hpos
    obtain ⟨ds, hds, hlen, hdig, hval⟩ :=
      ih (fun x hx => hm x (List.mem_cons_of_mem d hx)) p.2.1 p.2.2 (qacc ++ [p.1]) hrlt
    have hstep : divGo b hb hz (d :: rest) hm cur hc qacc =
        divGo b hb hz rest (fun x hx => hm x (List.mem_cons_of_mem d hx)) p.2.1 p.2.2
          (qacc ++ [p.1]) := rfl
    refine ⟨p.1 :: ds, ?_, by simp [hlen], ?_, ?_⟩
    · rw [hstep, hds]
      simp
    · intro x hx
      rcases List.mem_cons.mp hx with rfl | hx
      · exact hqlt
      · exact hdig x hx
    · have hform : (p.1 :: ds).reverse = ds.reverse ++ [p.1] := by simp
      rw [hform, toNat_append, hval, List.length_reverse, hlen, hq, hr]
      simp only [toNat_cons, toNat_nil, Nat.mul_zero, Nat.add_zero]
      have hsplit : toNat ((d :: rest).reverse)
          = toNat rest.reverse + 10 ^ rest.length * d := by
        rw [List.reverse_cons, toNat_append, List.length_reverse]
        simp [toNat_cons, toNat_nil]
      rw [hsplit]
      have key : toNat cur1 % toNat b + toNat cur1 / toNat b * toNat b = toNat cur1 :=
        Nat.mod_add_div' (toNat cur1) (toNat b)
      have hnum : toNat cur * 10 ^ (d :: rest).length
            + (toNat rest.reverse + 10 ^ rest.length * d)
          = (toNat cur1 % toNat b * 10 ^ rest.length + toNat rest.reverse)
            + (toNat cur1 / toNat b * 10 ^ rest.length) * toNat b := by
        calc toNat cur * 10 ^ (d :: rest).length
              + (toNat rest.reverse + 10 ^ rest.length * d)
            = toNat cur1 * 10 ^ rest.length + toNat rest.reverse := by
              rw [hv1]
              simp only [List.length_cons, pow_succ]
              ring
          _ = (toNat cur1 % toNat b + toNat cur1 / toNat b * toNat b) * 10 ^ rest.length
              + toNat rest.reverse := by rw [key]
          _ = (toNat cur1 % toNat b * 10 ^ rest.length + toNat rest.reverse)
              + (toNat cur1 / toNat b * 10 ^ rest.length) * toNat b := by ring
      rw [hnum, Nat.add_mul_div_right _ _ hpos]
      have hcomm : 10 ^ rest.length * (toNat cur1 / toNat b)
          = toNat cur1 / toNat b * 10 ^ rest.length := Nat.mul_comm _ _
      omega

/-- The body of `operator/=` after its division-by-zero guard: zero when
`*this < divisor`, one on exact equality of the digit strings, otherwise
long division with the quotient pushed after the default-constructed `[0]`
of `BigInt quotient`, then reversed and normalized. -/
def divCore (a b : List Nat) (ha : Canon a) (hb : Canon b)
    (hz : ¬ is_zero b = true) : List Nat :=
  if ltB a b then fromNat 0
  else if a = b then fromNat 1
  else remove_leading_zeros
    ((divGo b hb hz a.reverse (fun x hx => ha.2.1 x (List.mem_reverse.mp hx))
      [0] canon_zero [0]).reverse)

/-- `operator/=` (and `operator/`): `runtime_error` on a zero divisor,
otherwise `divCore`. -/
def div (a b : List Nat) (ha : Canon a) (hb : Canon b) : Except Err (List Nat) :=
  if h : is_zero b then .error .divisionByZero
  else .ok (divCore a b ha hb h)

/-- `operator%`: `runtime_error` on a zero divisor, otherwise
`remainder = *this; remainder -= (*this / divisor) * divisor;`. -/
def emod (a b : List Nat) (ha : Canon a) (hb : Canon b) : Except Err (List Nat) :=
  if h : is_zero b then .error .divisionByZero
  else sub a (mul (divCore a b ha hb h) b)

lemma divCore_toNat (a b : List Nat) (ha : Canon a) (hb : Canon b)
    (hz : ¬ is_zero b = true) :
    toNat (divCore a b ha hb hz) = toNat a / toNat b := by
  unfold divCore
  have hpos : 0 < toNat b := is_zero_false_pos b hb hz
  by_cases h1 : ltB a b = true
  · rw [if_pos h1, fromNat_zero]
    have := (ltB_iff a b ha hb).mp h1
    simp [toNat, Nat.div_eq_of_lt this]
  · rw [if_neg h1]
    by_cases h2 : a = b
    · rw [if_pos h2, fromNat_one, h2]
      simp [toNat, Nat.div_self hpos]
    · rw [if_neg h2]
      obtain ⟨ds, hds, hlen, hdig, hval⟩ := divGo_spec b hb hz a.reverse
        (fun x hx => ha.2.1 x (List.mem_reverse.mp hx)) [0] canon_zero [0]
        (by simp [toNat_cons, toNat_nil]; omega)
      rw [hds, rlz_toNat]
      have hform : (([0] ++ ds) : List Nat).reverse = ds.reverse ++ [0] := by simp
      rw [hform, toNat_append, hval]
      simp [toNat, List.reverse_reverse]

lemma divCore_canon (a b : List Nat) (ha : Canon a) (hb : Canon b)
    (hz : ¬ is_zero b = true) : Canon (divCore a b ha hb hz) := by
  unfold divCore
  have hpos : 0 < toNat b := is_zero_false_pos b hb hz
  by_cases h1 : ltB a b = true
  · rw [if_pos h1, fromNat_zero]; exact canon_zero
  · rw [if_neg h1]
    by_cases h2 : a = b
    · rw [if_pos h2, fromNat_one]; exact canon_singleton 1 (by omega)
    · rw [if_neg h2]
      obtain ⟨ds, hds, hlen, hdig, hval⟩ := divGo_spec b hb hz a.reverse
        (fun x hx => ha.2.1 x (List.mem_reverse.mp hx)) [0] canon_zero [0]
        (by simp [toNat_cons, toNat_nil]; omega)
      rw [hds]
      refine rlz_canon _ (by simp) ?_
      intro x hx
      rw [List.mem_reverse] at hx
      rcases List.mem_append.mp hx with hx | hx
      · simp at hx; omega
      · exact hdig x hx

lemma div_spec (a b : List Nat) (ha : Canon a) (hb : Canon b) (hz : ¬ is_zero b = true) :
    div a b ha hb = .ok (divCore a b ha hb hz) := by
  unfold div
  rw [dif_neg hz]

lemma div_zero (a b : List Nat) (ha : Canon a) (hb : Canon b) (hz : is_zero b = true) :
    div a b ha hb = .error .divisionByZero := by
  unfold div
  rw [dif_pos hz]

lemma emod_zero (a b : List Nat) (ha : Canon a) (hb : Canon b) (hz : is_zero b = true) :
    emod a b ha hb = .error .divisionByZero := by
  unfold emod
  rw [dif_pos hz]

lemma emod_spec (a b : List Nat) (ha : Canon a) (hb : Canon b) (hz : ¬ is_zero b = true) :
    ∃ r, emod a b ha hb = .ok r ∧ toNat r = toNat a % toNat b ∧ Canon r := by
  unfold emod
  rw [dif_neg hz]
  have hq : toNat (divCore a b ha hb hz) = toNat a / toNat b := divCore_toNat a b ha hb hz
  have hqc : Canon (divCore a b ha hb hz) := divCore_canon a b ha hb hz
  have hmul : toNat (mul (divCore a b ha hb hz) b) = toNat a / toNat b * toNat b := by
    rw [mul_toNat, hq]
  have hle : toNat (mul (divCore a b ha hb hz) b) ≤ toNat a := by
    rw [hmul]; exact Nat.div_mul_le_self _ _
  obtain ⟨hok, hval, hcan⟩ := sub_ok a (mul (divCore a b ha hb hz) b) ha
    (mul_canon _ b hqc hb) hle
  refine ⟨subU a (mul (divCore a b ha hb hz) b), hok, ?_, hcan⟩
  rw [hval, hmul]
  have h1 := Nat.div_add_mod (toNat a) (toNat b)
  have h2 : toNat a / toNat b * toNat b = toNat b * (toNat a / toNat b) := Nat.mul_comm _ _
  omega

/-! ### Exponentiation -/

lemma leB_iff (a b : List Nat) (ha : Canon a) (hb : Canon b) :
    leB a b = true ↔ toNat a ≤ toNat b := by
  have : leB a b = geB b a := rfl
  rw [this]
  exact geB_iff b a hb ha

lemma toNat_fromNat_one : toNat (fromNat 1) = 1 := fromNat_toNat 1

/-- The iteration loop of `pow`:
`while (counter < exponent) { result *= *this; ++counter; }`.  The class
defines no increment operator; `++counter` can only mean advancing the
arbitrary-precision counter by one, which we render as adding
`BigInt(1)`. -/
def powLoop (a e : List Nat) (ha : Canon a) (he : Canon e)
    (result counter : List Nat) (hr : Canon result) (hc : Canon counter) : List Nat :=
  if h : ltB counter e = true then
    powLoop a e ha he (mul result a) (add counter (fromNat 1))
      (mul_canon result a hr ha) (add_canon counter (fromNat 1) hc (fromNat_canon 1))
  else result
termination_by toNat e - toNat counter
decreasing_by
  have hlt : toNat counter < toNat e := (ltB_iff counter e hc he).mp h
  have hv : toNat (add counter (fromNat 1)) = toNat counter + 1 := by
    rw [add_toNat, toNat_fromNat_one]
  omega

/-- `pow(exponent)`: one when the exponent is zero, otherwise the repeated
multiplication loop starting from `result = 1`, `counter = 0`. -/
def pow (a e : List Nat) (ha : Canon a) (he : Canon e) : List Nat :=
  if is_zero e then fromNat 1
  else powLoop a e ha he (fromNat 1) (fromNat 0) (fromNat_canon 1) (fromNat_canon 0)

lemma powLoop_spec (a e : List Nat) (ha : Canon a) (he : Canon e) :
    ∀ (result counter : List Nat) (hr : Canon result) (hc : Canon counter),
      toNat counter ≤ toNat e →
      toNat (powLoop a e ha he result counter hr hc)
        = toNat result * toNat a ^ (toNat e - toNat counter) ∧
      Canon (powLoop a e ha he result counter hr hc) := by
  intro result counter hr hc
  induction result, counter, hr, hc using powLoop.induct a e ha he with
  | case1 result counter hr hc h ih =>
    intro hle
    have hlt : toNat counter < toNat e := (ltB_iff counter e hc he).mp h
    have hv : toNat (add counter (fromNat 1)) = toNat counter + 1 := by
      rw [add_toNat, toNat_fromNat_one]
    have hstep : powLoop a e ha he result counter hr hc
        = powLoop a e ha he (mul result a) (add counter (fromNat 1))
            (mul_canon result a hr ha) (add_canon counter (fromNat 1) hc (fromNat_canon 1)) := by
      rw [powLoop, dif_pos h]
    obtain ⟨ih1, ih2⟩ := ih (by omega)
    rw [hstep]
    refine ⟨?_, ih2⟩
    rw [ih1, mul_toNat, hv]
    have hexp : toNat e - toNat counter = (toNat e - (toNat counter + 1)) + 1 := by omega
    rw [hexp, pow_succ]
    ring
  | case2 result counter hr hc h =>
    intro hle
    have hge : toNat e ≤ toNat counter := by
      rcases Nat.lt_or_ge (toNat counter) (toNat e) with hlt | hge
      · exact absurd ((ltB_iff counter e hc he).mpr hlt) h
      · exact hge
    have hstep : powLoop a e ha he result counter hr hc = result := by
      rw [powLoop, dif_neg h]
    rw [hstep]
    have : toNat e - toNat counter = 0 := by omega
    rw [this, pow_zero]
    exact ⟨by ring, hr⟩

lemma pow_toNat (a e : List Nat) (ha : Canon a) (he : Canon e) :
    toNat (pow a e ha he) = toNat a ^ toNat e := by
  unfold pow
  by_cases hz : is_zero e = true
  · rw [if_pos hz, (is_zero_iff e he).mp hz, pow_zero, fromNat_toNat]
  · rw [if_neg hz]
    obtain ⟨h1, -⟩ := powLoop_spec a e ha he (fromNat 1) (fromNat 0)
      (fromNat_canon 1) (fromNat_canon 0) (by rw [fromNat_toNat]; omega)
    rw [h1, fromNat_toNat, fromNat_toNat]
    simp

lemma pow_canon (a e : List Nat) (ha : Canon a) (he : Canon e) :
    Canon (pow a e ha he) := by
  unfold pow
  by_cases hz : is_zero e = true
  · rw [if_pos hz]; exact fromNat_canon 1
  · rw [if_neg hz]
    exact (powLoop_spec a e ha he (fromNat 1) (fromNat 0)
      (fromNat_canon 1) (fromNat_canon 0) (by rw [fromNat_toNat]; omega)).2

lemma pow_zero_exp (a e : List Nat) (ha : Canon a) (he : Canon e)
    (hz : is_zero e = true) : pow a e ha he = fromNat 1 := by
  unfold pow
  rw [if_pos hz]

/-! ### Integer square root -/

lemma fromNat_two : fromNat 2 = [2] := by
  unfold fromNat
  rw [show (2:Nat) / 10 = 0 by norm_num, toDigitsLoop_zero]

lemma two_not_zero : ¬ is_zero (fromNat 2) = true := by
  rw [fromNat_two]
  decide

/-- `mid = (low + high) / BigInt(2)` inside the bisection loop of `sqrt`
(the divisor is the nonzero constant two, so `operator/`'s
division-by-zero guard cannot fire and the division body runs). -/
def sqrtMid (low high : List Nat) (hl : Canon low) (hh : Canon high) : List Nat :=
  divCore (add low high) (fromNat 2) (add_canon low high hl hh) (fromNat_canon 2)
    two_not_zero

lemma sqrtMid_toNat (low high : List Nat) (hl : Canon low) (hh : Canon high) :
    toNat (sqrtMid low high hl hh) = (toNat low + toNat high) / 2 := by
  unfold sqrtMid
  rw [divCore_toNat, add_toNat, fromNat_toNat]

lemma sqrtMid_canon (low high : List Nat) (hl : Canon low) (hh : Canon high) :
    Canon (sqrtMid low high hl hh) := divCore_canon _ _ _ _ _

/-- The bisection loop of `sqrt`: `while (low <= high)` with exact-square
early return, lower-bound moves recording the best floor candidate, and
upper-bound moves.  `high = mid - BigInt(1)` goes through `operator-=`,
whose underflow guard cannot fire because `1 <= low <= mid` (the invariant
`hlow1` carried here), so the guarded subtraction performs its mutation
`subU`. -/
def sqrtLoop (a : List Nat) (ha : Canon a) (low high result : List Nat)
    (hl : Canon low) (hh : Canon high) (hres : Canon result)
    (hlow1 : 0 < toNat low) : List Nat :=
  if hcond : leB low high = true then
    if mul (sqrtMid low high hl hh) (sqrtMid low high hl hh) = a then
      sqrtMid low high hl hh
    else if ltB (mul (sqrtMid low high hl hh) (sqrtMid low high hl hh)) a = true then
      sqrtLoop a ha (add (sqrtMid low high hl hh) (fromNat 1)) high
        (sqrtMid low high hl hh)
        (add_canon _ _ (sqrtMid_canon low high hl hh) (fromNat_canon 1)) hh
        (sqrtMid_canon low high hl hh)
        (by rw [add_toNat, toNat_fromNat_one]; omega)
    else
      sqrtLoop a ha low (subU (sqrtMid low high hl hh) (fromNat 1)) result hl
        (subU_canon _ _ (sqrtMid_canon low high hl hh).1 (sqrtMid_canon low high hl hh).2.1)
        hres hlow1
  else result
termination_by toNat high + 1 - toNat low
decreasing_by
  · have hle : toNat low ≤ toNat high := (leB_iff low high hl hh).mp hcond
    have hmid := sqrtMid_toNat low high hl hh
    rw [add_toNat, toNat_fromNat_one]
    omega
  · have hle : toNat low ≤ toNat high := (leB_iff low high hl hh).mp hcond
    have hmid := sqrtMid_toNat low high hl hh
    have hmid1 : 1 ≤ toNat (sqrtMid low high hl hh) := by omega
    have hsub : toNat (subU (sqrtMid low high hl hh) (fromNat 1))
        = toNat (sqrtMid low high hl hh) - 1 := by
      rw [subU_toNat _ _ (sqrtMid_canon low high hl hh).2.1 (fromNat_canon 1).2.1
        ?_ (by rw [toNat_fromNat_one]; omega), toNat_fromNat_one]
      rw [fromNat_one]
      have := List.length_pos.mpr (sqrtMid_canon low high hl hh).1
      simpa using this
    omega

/-- `sqrt()`: the structurally unreachable negative guard, the 0/1 early
return, then bisection over `[1, *this]` with `result = BigInt()`. -/
def sqrt (a : List Nat) (ha : Canon a) : Except Err (List Nat) :=
  if ltB a (fromNat 0) then .error .invalidArgument
  else if is_zero a || a = fromNat 1 then .ok a
  else .ok (sqrtLoop a ha (fromNat 1) a (fromNat 0) (fromNat_canon 1) ha
    (fromNat_canon 0) (by rw [toNat_fromNat_one]; omega))

lemma sqrtLoop_spec (a : List Nat) (ha : Canon a) :
    ∀ (low high result : List Nat) (hl : Canon low) (hh : Canon high)
      (hres : Canon result) (hlow1 : 0 < toNat low),
      toNat result + 1 = toNat low →
      (toNat low - 1) * (toNat low - 1) ≤ toNat a →
      toNat a < (toNat high + 1) * (toNat high + 1) →
      toNat (sqrtLoop a ha low high result hl hh hres hlow1)
          * toNat (sqrtLoop a ha low high result hl hh hres hlow1) ≤ toNat a ∧
      toNat a < (toNat (sqrtLoop a ha low high result hl hh hres hlow1) + 1)
          * (toNat (sqrtLoop a ha low high result hl hh hres hlow1) + 1) := by
  intro low high result hl hh hres hlow1
  induction low, high, result, hl, hh, hres, hlow1 using sqrtLoop.induct a ha with
  | case1 low high result hl hh hres hlow1 hcond heq =>
    intro hinv1 hinv2 hinv3
    have hstep : sqrtLoop a ha low high result hl hh hres hlow1
        = sqrtMid low high hl hh := by
      rw [sqrtLoop, dif_pos hcond, if_pos heq]
    have hval : toNat (sqrtMid low high hl hh) * toNat (sqrtMid low high hl hh)
        = toNat a := by
      rw [← mul_toNat, heq]
    rw [hstep]
    constructor
    · omega
    · have hexp : (toNat (sqrtMid low high hl hh) + 1)
          * (toNat (sqrtMid low high hl hh) + 1)
          = toNat (sqrtMid low high hl hh) * toNat (sqrtMid low high hl hh)
            + 2 * toNat (sqrtMid low high hl hh) + 1 := by ring
      omega
  | case2 low high result hl hh hres hlow1 hcond heq hlt ih =>
    intro hinv1 hinv2 hinv3
    have hle : toNat low ≤ toNat high := (leB_iff low high hl hh).mp hcond
    have hmid := sqrtMid_toNat low high hl hh
    have hsq : toNat (mul (sqrtMid low high hl hh) (sqrtMid low high hl hh))
        = toNat (sqrtMid low high hl hh) * toNat (sqrtMid low high hl hh) :=
      mul_toNat _ _
    have hltv : toNat (sqrtMid low high hl hh) * toNat (sqrtMid low high hl hh)
        < toNat a := by
      rw [← hsq]
      exact (ltB_iff _ a (mul_canon _ _ (sqrtMid_canon low high hl hh)
        (sqrtMid_canon low high hl hh)) ha).mp hlt
    have hstep : sqrtLoop a ha low high result hl hh hres hlow1
        = sqrtLoop a ha (add (sqrtMid low high hl hh) (fromNat 1)) high
            (sqrtMid low high hl hh)
            (add_canon _ _ (sqrtMid_canon low high hl hh) (fromNat_canon 1)) hh
            (sqrtMid_canon low high hl hh)
            (by rw [add_toNat, toNat_fromNat_one]; omega) := by
      rw [sqrtLoop, dif_pos hcond, if_neg heq, if_pos hlt]
    rw [hstep]
    refine ih ?_ ?_ ?_
    · rw [add_toNat, toNat_fromNat_one]
    · rw [add_toNat, toNat_fromNat_one]
      have : toNat (sqrtMid low high hl hh) + 1 - 1 = toNat (sqrtMid low high hl hh) := by
        omega
      rw [this]
      omega
    · exact hinv3
  | case3 low high result hl hh hres hlow1 hcond heq hlt ih =>
    intro hinv1 hinv2 hinv3
    have hle : toNat low ≤ toNat high := (leB_iff low high hl hh).mp hcond
    have hmid := sqrtMid_toNat low high hl hh
    have hmid1 : 1 ≤ toNat (sqrtMid low high hl hh) := by omega
    have hsq : toNat (mul (sqrtMid low high hl hh) (sqrtMid low high hl hh))
        = toNat (sqrtMid low high hl hh) * toNat (sqrtMid low high hl hh) :=
      mul_toNat _ _
    have hgev : toNat a ≤ toNat (sqrtMid low high hl hh) * toNat (sqrtMid low high hl hh) := by
      rw [← hsq]
      exact (ltB_false_iff _ a (mul_canon _ _ (sqrtMid_canon low high hl hh)
        (sqrtMid_canon low high hl hh)) ha).mp (by
          cases h : ltB (mul (sqrtMid low high hl hh) (sqrtMid low high hl hh)) a
          · rfl
          · exact absurd h hlt)
    have hnev : toNat (mul (sqrtMid low high hl hh) (sqrtMid low high hl hh)) ≠ toNat a := by
      intro hv
      exact heq (toNat_inj _ a (mul_canon _ _ (sqrtMid_canon low high hl hh)
        (sqrtMid_canon low high hl hh)) ha hv)
    have hstrict : toNat a < toNat (sqrtMid low high hl hh) * toNat (sqrtMid low high hl hh) := by
      rw [← hsq]
      omega
    have hsub : toNat (subU (sqrtMid low high hl hh) (fromNat 1))
        = toNat (sqrtMid low high hl hh) - 1 := by
      rw [subU_toNat _ _ (sqrtMid_canon low high hl hh).2.1 (fromNat_canon 1).2.1
        ?_ (by rw [toNat_fromNat_one]; omega), toNat_fromNat_one]
      rw [fromNat_one]
      have := List.length_pos.mpr (sqrtMid_canon low high hl hh).1
      simpa using this
    have hstep : sqrtLoop a ha low high result hl hh hres hlow1
        = sqrtLoop a ha low (subU (sqrtMid low high hl hh) (fromNat 1)) result hl
            (subU_canon _ _ (sqrtMid_canon low high hl hh).1
              (sqrtMid_canon low high hl hh).2.1) hres hlow1 := by
      rw [sqrtLoop, dif_pos hcond, if_neg heq, if_neg hlt]
    rw [hstep]
    refine ih hinv1 hinv2 ?_
    rw [hsub]
    have hexp : (toNat (sqrtMid low high hl hh) - 1 + 1)
        = toNat (sqrtMid low high hl hh) := by omega
    rw [hexp]
    omega
  | case4 low high result hl hh hres hlow1 hcond =>
    intro hinv1 hinv2 hinv3
    have hgt : toNat high < toNat low := by
      rcases Nat.lt_or_ge (toNat high) (toNat low) with h | h
      · exact h
      · exact absurd ((leB_iff low high hl hh).mpr h) hcond
    have hstep : sqrtLoop a ha low high result hl hh hres hlow1 = result := by
      rw [sqrtLoop, dif_neg hcond]
    rw [hstep]
    constructor
    · have : toNat result = toNat low - 1 := by omega
      rw [this]
      exact hinv2
    · have h1 : toNat high + 1 ≤ toNat result + 1 := by omega
      have h2 : (toNat high + 1) * (toNat high + 1) ≤ (toNat result + 1) * (toNat result + 1) :=
        Nat.mul_le_mul h1 h1
      omega

lemma sqrt_spec (a : List Nat) (ha : Canon a) :
    ∃ r, sqrt a ha = .ok r ∧
      toNat r * toNat r ≤ toNat a ∧ toNat a < (toNat r + 1) * (toNat r + 1) := by
  unfold sqrt
  have hneg : ltB a (fromNat 0) = false := by
    rw [fromNat_zero]
    cases h : ltB a [0]
    · rfl
    · have := (ltB_iff a [0] ha canon_zero).mp h
      simp [toNat] at this
  rw [hneg]
  simp only [Bool.false_eq_true, if_false]
  by_cases hz : (is_zero a || a = fromNat 1) = true
  · rw [if_pos hz]
    refine ⟨a, rfl, ?_, ?_⟩
    · rcases Bool.or_eq_true_iff.mp hz with h | h
      · have h0 : toNat a = 0 := (is_zero_iff a ha).mp h
        norm_num [h0]
      · have h1 : a = fromNat 1 := by simpa using h
        rw [h1, toNat_fromNat_one]
    · rcases Bool.or_eq_true_iff.mp hz with h | h
      · have h0 : toNat a = 0 := (is_zero_iff a ha).mp h
        norm_num [h0]
      · have h1 : a = fromNat 1 := by simpa using h
        rw [h1, toNat_fromNat_one]
        norm_num
  · rw [if_neg hz]
    refine ⟨_, rfl, ?_⟩
    refine sqrtLoop_spec a ha (fromNat 1) a (fromNat 0) (fromNat_canon 1) ha
      (fromNat_canon 0) (by rw [toNat_fromNat_one]; omega) ?_ ?_ ?_
    · rw [fromNat_toNat, fromNat_toNat]
    · rw [toNat_fromNat_one]
      simp
    · have : toNat a ≤ toNat a * toNat a + 2 * toNat a := by
        omega
      have hexp : (toNat a + 1) * (toNat a + 1) = toNat a * toNat a + 2 * toNat a + 1 := by
        ring
      omega

/-! ### Derived numeric functions -/

/-- The loop of `factorial`: `for (int i = 2; i <= n; ++i) result *= BigInt(i);`
(`BigInt(i)` converts the positive loop index to the unsigned
constructor's argument). -/
def factGo (n i : Int) (acc : List Nat) : List Nat :=
  if i ≤ n then factGo n (i + 1) (mul acc (fromNat i.toNat)) else acc
termination_by (n + 1 - i).toNat
decreasing_by omega

/-- `factorial(n)`: `invalid_argument` when `n < 0`, otherwise the product
loop starting from `BigInt result(1)`. -/
def factorial (n : Int) : Except Err (List Nat) :=
  if n < 0 then .error .invalidArgument
  else .ok (factGo n 2 (fromNat 1))

/-- Mathematical product of the integers `i..n` (1 when the range is
empty), used to specify the factorial loop. -/
def prodRange (n i : Int) : Nat :=
  if i ≤ n then i.toNat * prodRange n (i + 1) else 1
termination_by (n + 1 - i).toNat
decreasing_by omega

lemma factGo_val (n : Int) : ∀ (i : Int) (acc : List Nat), Canon acc →
    toNat (factGo n i acc) = toNat acc * prodRange n i ∧ Canon (factGo n i acc) := by
  intro i acc
  induction i, acc using factGo.induct n with
  | case1 i acc h ih =>
    intro hacc
    have hstep : factGo n i acc = factGo n (i + 1) (mul acc (fromNat i.toNat)) := by
      rw [factGo, if_pos h]
    have hprod : prodRange n i = i.toNat * prodRange n (i + 1) := by
      rw [prodRange, if_pos h]
    obtain ⟨ih1, ih2⟩ := ih (mul_canon acc (fromNat i.toNat) hacc (fromNat_canon _))
    rw [hstep, hprod]
    refine ⟨?_, ih2⟩
    rw [ih1, mul_toNat, fromNat_toNat]
    ring
  | case2 i acc h =>
    intro hacc
    have hstep : factGo n i acc = acc := by rw [factGo, if_neg h]
    have hprod : prodRange n i = 1 := by rw [prodRange, if_neg h]
    rw [hstep, hprod]
    exact ⟨by ring, hacc⟩

lemma prodRange_factorial (n : Int) (hn : 0 ≤ n) : ∀ (i : Int), 1 ≤ i → i ≤ n + 1 →
    Nat.factorial (i.toNat - 1) * prodRange n i = Nat.factorial n.toNat := by
  intro i
  induction i using prodRange.induct n with
  | case1 i h ih =>
    intro h1 h2
    have hstep : prodRange n i = i.toNat * prodRange n (i + 1) := by
      rw [prodRange, if_pos h]
    have hih := ih (by omega) (by omega)
    rw [hstep, ← hih]
    have hi1 : (i + 1).toNat - 1 = i.toNat := by omega
    rw [hi1]
    have hfac := Nat.factorial_succ (i.toNat - 1)
    have heq : i.toNat - 1 + 1 = i.toNat := by omega
    rw [heq] at hfac
    rw [hfac]
    ring
  | case2 i h =>
    intro h1 h2
    have hstep : prodRange n i = 1 := by rw [prodRange, if_neg h]
    have hi : i = n + 1 := by omega
    rw [hstep, hi]
    have : (n + 1).toNat - 1 = n.toNat := by omega
    rw [this]
    ring

lemma factorial_neg (n : Int) (h : n < 0) : factorial n = .error .invalidArgument := by
  unfold factorial
  rw [if_pos h]

lemma factorial_ok (n : Int) (h : 0 ≤ n) :
    factorial n = .ok (factGo n 2 (fromNat 1)) ∧
    toNat (factGo n 2 (fromNat 1)) = Nat.factorial n.toNat ∧
    Canon (factGo n 2 (fromNat 1)) := by
  obtain ⟨hval, hcan⟩ := factGo_val n 2 (fromNat 1) (fromNat_canon 1)
  refine ⟨by unfold factorial; rw [if_neg (by omega)], ?_, hcan⟩
  rw [hval, toNat_fromNat_one, Nat.one_mul]
  by_cases h1 : 1 ≤ n
  · have := prodRange_factorial n h 2 (by omega) (by omega)
    have h2 : ((2:Int)).toNat - 1 = 1 := by omega
    rw [h2] at this
    simpa [Nat.factorial] using this
  · have hn0 : n = 0 := by omega
    subst hn0
    rw [prodRange, if_neg (by omega)]
    rfl

/-- `catalan(n)`: `invalid_argument` when `n < 0`, otherwise
`factorial(2*n) / (factorial(n+1) * factorial(n))`.  For `n >= 0` each
inner `factorial` passes its guard and returns its loop value, which is
canonical, and the quotient goes through `operator/`. -/
def catalan (n : Int) : Except Err (List Nat) :=
  if n < 0 then .error .invalidArgument
  else div (factGo (2 * n) 2 (fromNat 1))
    (mul (factGo (n + 1) 2 (fromNat 1)) (factGo n 2 (fromNat 1)))
    (factGo_val (2 * n) 2 (fromNat 1) (fromNat_canon 1)).2
    (mul_canon _ _ (factGo_val (n + 1) 2 (fromNat 1) (fromNat_canon 1)).2
      (factGo_val n 2 (fromNat 1) (fromNat_canon 1)).2)

lemma catalan_neg (n : Int) (h : n < 0) : catalan n = .error .invalidArgument := by
  unfold catalan
  rw [if_pos h]

lemma catalan_ok (n : Int) (h : 0 ≤ n) :
    ∃ c, catalan n = .ok c ∧
      toNat c = Nat.factorial (2 * n.toNat)
        / (Nat.factorial (n.toNat + 1) * Nat.factorial n.toNat) := by
  have h2n : (2 * n).toNat = 2 * n.toNat := by omega
  have hn1 : (n + 1).toNat = n.toNat + 1 := by omega
  obtain ⟨-, hnum, hnumc⟩ := factorial_ok (2 * n) (by omega)
  obtain ⟨-, hd1, hd1c⟩ := factorial_ok (n + 1) (by omega)
  obtain ⟨-, hd2, hd2c⟩ := factorial_ok n h
  have hden : toNat (mul (factGo (n + 1) 2 (fromNat 1)) (factGo n 2 (fromNat 1)))
      = Nat.factorial (n.toNat + 1) * Nat.factorial n.toNat := by
    rw [mul_toNat, hd1, hd2, hn1]
  have hdenpos : 0 < toNat (mul (factGo (n + 1) 2 (fromNat 1)) (factGo n 2 (fromNat 1))) := by
    rw [hden]
    exact Nat.mul_pos (Nat.factorial_pos _) (Nat.factorial_pos _)
  have hdencanon : Canon (mul (factGo (n + 1) 2 (fromNat 1)) (factGo n 2 (fromNat 1))) :=
    mul_canon _ _ (factGo_val (n + 1) 2 (fromNat 1) (fromNat_canon 1)).2
      (factGo_val n 2 (fromNat 1) (fromNat_canon 1)).2
  have hz : ¬ is_zero (mul (factGo (n + 1) 2 (fromNat 1)) (factGo n 2 (fromNat 1))) = true := by
    intro hcontra
    rw [is_zero_iff _ hdencanon] at hcontra
    omega
  have hstep : catalan n = div (factGo (2 * n) 2 (fromNat 1))
      (mul (factGo (n + 1) 2 (fromNat 1)) (factGo n 2 (fromNat 1)))
      (factGo_val (2 * n) 2 (fromNat 1) (fromNat_canon 1)).2 hdencanon := by
    unfold catalan
    rw [if_neg (by omega)]
  rw [hstep, div_spec _ _ _ _ hz]
  refine ⟨_, rfl, ?_⟩
  rw [divCore_toNat, hnum, hden, h2n]

/-- The loop of `fibonacci`:
`for (int i = 2; i <= n; ++i) { next = a + b; a = b; b = next; }`. -/
def fibGo (n i : Int) (x y : List Nat) : List Nat :=
  if i ≤ n then fibGo n (i + 1) y (add x y) else y
termination_by (n + 1 - i).toNat
decreasing_by omega

/-- `fibonacci(n)`: `a = 0, b = 1`; returns `a` when `n == 0`, otherwise
runs the loop from `i = 2` and returns `b`.  There is no negative-argument
guard. -/
def fibonacci (n : Int) : List Nat :=
  if n = 0 then fromNat 0
  else fibGo n 2 (fromNat 0) (fromNat 1)

/-! ### Rendering -/

lemma repr_digit (d : Nat) (h : d < 10) :
    (Nat.repr d).toList = [Char.ofNat (48 + d)] := by
  interval_cases d <;> rfl

lemma render_foldl : ∀ (l : List Nat) (acc : List Char), (∀ d ∈ l, d < 10) →
    l.foldl (fun acc x => acc ++ (Nat.repr x).toList) acc
      = acc ++ l.map (fun d => Char.ofNat (48 + d)) := by
  intro l
  induction l with
  | nil => intro acc _; simp
  | cons d ds ih =>
    intro acc h10
    rw [List.foldl_cons, ih _ (fun z hz => h10 z (by simp [hz])),
      repr_digit d (h10 d (by simp))]
    simp

lemma render_eq (d : List Nat) (h : ∀ x ∈ d, x < 10) :
    render d = d.reverse.map (fun x => Char.ofNat (48 + x)) := by
  unfold render
  rw [render_foldl d.reverse [] (fun z hz => h z (List.mem_reverse.mp hz))]
  simp

/-! ### The claims -/

/-- Claim C1 (violated by the code): the canonical-form invariant is
claimed for every publicly constructed value, but parsing the decimal
string "0" stores the *character* `'0'` (byte value 48) as the single
digit, so the resulting digit sequence is not the single digit 0 and its
entry lies outside [0,9]. -/
theorem claim_C1_canon_violation :
    fromString ['0'] = .ok [48] ∧ ¬ Canon [48] :=
  ⟨rfl, by decide⟩

/-- Claim C2 (violated by the code): the parse/render round trip is
claimed for every valid decimal string without leading zeros or "0", but
for the string "0" the parsed value renders as "48" (the renderer prints
each stored byte as an `int`). -/
theorem claim_C2_roundtrip_violation :
    fromString ['0'] = .ok [48] ∧ render [48] = ['4', '8'] ∧ render [48] ≠ ['0'] :=
  ⟨rfl, rfl, by decide⟩

/-- Claim C3: division-remainder law — for every canonical value `a` and
nonzero canonical value `b`, division and modulo succeed,
`(a / b) * b + (a % b)` equals `a` (as digit sequences, i.e. under the
code's `==`), and `a % b < b` under the code's `<`. -/
theorem claim_C3_division_remainder (a b : List Nat) (ha : Canon a) (hb : Canon b)
    (hz : ¬ is_zero b = true) :
    ∃ q r, div a b ha hb = .ok q ∧ emod a b ha hb = .ok r ∧
      add (mul q b) r = a ∧ ltB r b = true := by
  obtain ⟨r, hok, hval, hcan⟩ := emod_spec a b ha hb hz
  refine ⟨divCore a b ha hb hz, r, div_spec a b ha hb hz, hok, ?_, ?_⟩
  · apply toNat_inj _ _ (add_canon _ _ (mul_canon _ _ (divCore_canon a b ha hb hz) hb) hcan) ha
    rw [add_toNat, mul_toNat, divCore_toNat, hval]
    have h1 := Nat.div_add_mod (toNat a) (toNat b)
    have h2 : toNat a / toNat b * toNat b = toNat b * (toNat a / toNat b) :=
      Nat.mul_comm _ _
    omega
  · rw [ltB_iff r b hcan hb, hval]
    exact Nat.mod_lt _ (is_zero_false_pos b hb hz)

lemma canon_w100 : Canon [0, 0, 1] := by decide

lemma canon_w3 : Canon [3] := by decide

lemma nonzero_w3 : ¬ is_zero [3] = true := by decide

/-- Witness for C3 at `a = 100`, `b = 3`. -/
theorem claim_C3_witness :
    Canon [0, 0, 1] ∧ Canon [3] ∧ ¬ is_zero [3] = true ∧
    (∃ q r, div [0, 0, 1] [3] canon_w100 canon_w3 = .ok q ∧
      emod [0, 0, 1] [3] canon_w100 canon_w3 = .ok r ∧
      add (mul q [3]) r = [0, 0, 1] ∧ ltB r [3] = true) :=
  ⟨canon_w100, canon_w3, nonzero_w3,
    claim_C3_division_remainder [0, 0, 1] [3] canon_w100 canon_w3 nonzero_w3⟩

/-- Claim C4: subtract-into fails with `Underflow` exactly when
`self < other` (the guard `if (*this < other) throw` runs before any digit
is written, so a failing call leaves the receiver unchanged — in this
functional embedding failure produces no new value at all), and on
`self >= other` it succeeds with the exact difference, in canonical
form. -/
theorem claim_C4_subtract (a b : List Nat) (ha : Canon a) (hb : Canon b) :
    (sub a b = .error .underflow ↔ toNat a < toNat b) ∧
    (toNat b ≤ toNat a →
      ∃ c, sub a b = .ok c ∧ toNat c = toNat a - toNat b ∧ Canon c) := by
  constructor
  · constructor
    · intro herr
      by_contra hc
      push_neg at hc
      obtain ⟨hok, -, -⟩ := sub_ok a b ha hb hc
      rw [hok] at herr
      cases herr
    · exact sub_err a b ha hb
  · intro hle
    obtain ⟨hok, hval, hcan⟩ := sub_ok a b ha hb hle
    exact ⟨subU a b, hok, hval, hcan⟩

lemma canon_w1 : Canon [1] := by decide

lemma canon_w2 : Canon [2] := by decide

/-- Witness for C4 at `a = 1`, `b = 2` (an underflowing pair). -/
theorem claim_C4_witness :
    Canon [1] ∧ Canon [2] ∧
    ((sub [1] [2] = .error .underflow ↔ toNat [1] < toNat [2]) ∧
      (toNat [2] ≤ toNat [1] →
        ∃ c, sub [1] [2] = .ok c ∧ toNat c = toNat [1] - toNat [2] ∧ Canon c)) :=
  ⟨canon_w1, canon_w2, claim_C4_subtract [1] [2] canon_w1 canon_w2⟩

/-- Claim C5: integer square-root bound — for every canonical value `a`,
`sqrt` succeeds (its negative guard is unreachable) and its result `r`
satisfies `r*r <= a < (r+1)*(r+1)`. -/
theorem claim_C5_sqrt (a : List Nat) (ha : Canon a) :
    ∃ r, sqrt a ha = .ok r ∧
      toNat r * toNat r ≤ toNat a ∧ toNat a < (toNat r + 1) * (toNat r + 1) :=
  sqrt_spec a ha

lemma canon_w5 : Canon [5] := by decide

/-- Witness for C5 at `a = 5`. -/
theorem claim_C5_witness :
    Canon [5] ∧
    (∃ r, sqrt [5] canon_w5 = .ok r ∧
      toNat r * toNat r ≤ toNat [5] ∧ toNat [5] < (toNat r + 1) * (toNat r + 1)) :=
  ⟨canon_w5, claim_C5_sqrt [5] canon_w5⟩

/-- Claim C6: `pow` returns one when the exponent is zero, and otherwise
the `e`-fold product of the base computed by the linear counter loop, so
its value is `a ^ e`. -/
theorem claim_C6_pow (a e : List Nat) (ha : Canon a) (he : Canon e) :
    (is_zero e = true → pow a e ha he = fromNat 1) ∧
    toNat (pow a e ha he) = toNat a ^ toNat e :=
  ⟨fun hz => pow_zero_exp a e ha he hz, pow_toNat a e ha he⟩

lemma canon_w2' : Canon [2] := by decide

lemma canon_w3' : Canon [3] := by decide

/-- Witness for C6 at `a = 2`, `e = 3`. -/
theorem claim_C6_witness :
    Canon [2] ∧ Canon [3] ∧
    ((is_zero [3] = true → pow [2] [3] canon_w2' canon_w3' = fromNat 1) ∧
      toNat (pow [2] [3] canon_w2' canon_w3') = toNat [2] ^ toNat [3]) :=
  ⟨canon_w2', canon_w3', claim_C6_pow [2] [3] canon_w2' canon_w3'⟩

/-- Claim C7: division and modulo fail with `DivisionByZero` exactly when
the divisor is the zero value; with a nonzero divisor both succeed, a
dividend strictly smaller than the divisor gives quotient zero, and a
dividend equal to the divisor gives quotient one. -/
theorem claim_C7_div_mod_guards (a b : List Nat) (ha : Canon a) (hb : Canon b) :
    (is_zero b = true →
      div a b ha hb = .error .divisionByZero ∧
      emod a b ha hb = .error .divisionByZero) ∧
    (¬ is_zero b = true →
      (∃ q, div a b ha hb = .ok q) ∧ (∃ r, emod a b ha hb = .ok r) ∧
      (toNat a < toNat b → div a b ha hb = .ok (fromNat 0)) ∧
      (a = b → div a b ha hb = .ok (fromNat 1))) := by
  constructor
  · intro hz
    exact ⟨div_zero a b ha hb hz, emod_zero a b ha hb hz⟩
  · intro hz
    refine ⟨⟨divCore a b ha hb hz, div_spec a b ha hb hz⟩, ?_, ?_, ?_⟩
    · obtain ⟨r, hok, -, -⟩ := emod_spec a b ha hb hz
      exact ⟨r, hok⟩
    · intro hlt
      rw [div_spec a b ha hb hz]
      congr 1
      unfold divCore
      rw [if_pos ((ltB_iff a b ha hb).mpr hlt)]
    · intro heq
      rw [div_spec a b ha hb hz]
      congr 1
      unfold divCore
      have hnlt : ¬ ltB a b = true := by
        subst heq
        intro hcontra
        have := (ltB_iff a a ha ha).mp hcontra
        omega
      rw [if_neg hnlt, if_pos heq]

lemma canon_w7a : Canon [5] := by decide

lemma canon_w7b : Canon [7] := by decide

/-- Witness for C7 at `a = 5`, `b = 7`. -/
theorem claim_C7_witness :
    Canon [5] ∧ Canon [7] ∧
    ((is_zero [7] = true →
        div [5] [7] canon_w7a canon_w7b = .error .divisionByZero ∧
        emod [5] [7] canon_w7a canon_w7b = .error .divisionByZero) ∧
      (¬ is_zero [7] = true →
        (∃ q, div [5] [7] canon_w7a canon_w7b = .ok q) ∧
        (∃ r, emod [5] [7] canon_w7a canon_w7b = .ok r) ∧
        (toNat [5] < toNat [7] → div [5] [7] canon_w7a canon_w7b = .ok (fromNat 0)) ∧
        ([5] = [7] → div [5] [7] canon_w7a canon_w7b = .ok (fromNat 1)))) :=
  ⟨canon_w7a, canon_w7b, claim_C7_div_mod_guards [5] [7] canon_w7a canon_w7b⟩

/-- Claim C8: `factorial(n)` is `n!` (product of 1..n, empty product 1)
and `catalan(n)` is `(2n)! / ((n+1)! * n!)` for every native integer
`n >= 0`; both fail with `InvalidArgument` for `n < 0`. -/
theorem claim_C8_derived (n : Int) :
    (n < 0 → factorial n = .error .invalidArgument ∧
      catalan n = .error .invalidArgument) ∧
    (0 ≤ n →
      (∃ f, factorial n = .ok f ∧ toNat f = Nat.factorial n.toNat) ∧
      (∃ c, catalan n = .ok c ∧
        toNat c = Nat.factorial (2 * n.toNat)
          / (Nat.factorial (n.toNat + 1) * Nat.factorial n.toNat))) := by
  constructor
  · intro hneg
    exact ⟨factorial_neg n hneg, catalan_neg n hneg⟩
  · intro hpos
    obtain ⟨hok, hval, -⟩ := factorial_ok n hpos
    exact ⟨⟨factGo n 2 (fromNat 1), hok, hval⟩, catalan_ok n hpos⟩

/-- Witness for C8 at `n = -1` (guard) and `n = 3` (value). -/
theorem claim_C8_witness :
    ((factorial (-1) = .error .invalidArgument ∧
        catalan (-1) = .error .invalidArgument) ∧
      ((∃ f, factorial 3 = .ok f ∧ toNat f = Nat.factorial (3 : Int).toNat) ∧
        (∃ c, catalan 3 = .ok c ∧
          toNat c = Nat.factorial (2 * (3 : Int).toNat)
            / (Nat.factorial ((3 : Int).toNat + 1) * Nat.factorial (3 : Int).toNat)))) :=
  ⟨(claim_C8_derived (-1)).1 (by norm_num),
    (claim_C8_derived 3).2 (by norm_num)⟩

/-- Claim C9: native-integer construction round trip — rendering the
value built from any native unsigned integer `x` yields the ordinary
decimal string of `x`; in particular zero renders as "0" because the
construction loop runs at least once. -/
theorem claim_C9_construct_render (x : Nat) : render (fromNat x) = decimalString x := by
  by_cases hx : x = 0
  · subst hx
    rw [fromNat_zero]
    decide
  · rw [fromNat_eq_digits x hx,
      render_eq _ (fun d hd => Nat.digits_lt_base (by omega) hd)]
    unfold decimalString
    rw [if_neg hx]

/-- Claim C10: `fibonacci` has no negative-argument guard — for every
negative native integer `n` the `n == 0` test fails and the loop from
`i = 2` never runs, so the call returns the value one and raises no
error (the function is total on all of `Int`). -/
theorem claim_C10_fib_negative (n : Int) (h : n < 0) : fibonacci n = fromNat 1 := by
  unfold fibonacci
  rw [if_neg (by omega), fibGo, if_neg (by omega)]

/-- Witness for C10 at `n = -1`. -/
theorem claim_C10_witness : fibonacci (-1) = fromNat 1 :=
  claim_C10_fib_negative (-1) (by norm_num)

end BigIntSpec
